import Mathlib

set_option maxRecDepth 4000

/-!
Verification of the graph substrate of `localgraphclustering/GraphLocal.py`.

The adjacency matrix is embedded as a total function `ℕ → ℕ → ℚ` supported on
`[0,n)²`; a stored CSR entry `(u,v,w)` of the scipy matrix corresponds to
`A u v = w ≠ 0` (float64 arithmetic is idealised as exact rational arithmetic,
and scipy's "explicit zero" entries, which can only arise from zero-weight
input rows, are identified with absent entries).
-/

namespace GraphLocal

/-- Python-level errors raised during construction:
`arityError` models `Exception('GraphLocal.read_graph: df.shape[1] not in (2, 3)')`,
`valueError` models the `ValueError`s numpy/scipy raise (empty `.max()`,
mismatched array lengths, negative or out-of-range indices in
`sp.csr_matrix((weights, (source, target)), shape=(n, n))`), and
`assertionError` models the `assert` after symmetrization. -/
inductive Err where
  | arityError : Err
  | valueError : Err
  | assertionError : Err
deriving DecidableEq

/-- The state of a `GraphLocal` object: `n = _num_vertices`, `A` the adjacency
matrix (`adjacency_matrix`), `m = _num_edges`, `weighted = _weighted`, and the
statistics `d`, `dn` (reciprocal degrees) and `vol` (`vol_G`) of
`compute_statistics`.  The source also derives `d_sqrt = √d` and
`dn_sqrt = √dn`, elementwise square roots of the fields modelled here; being
determined by `d` and `dn`, they are not stored separately. -/
structure GraphRec where
  n : ℕ
  A : ℕ → ℕ → ℚ
  m : ℕ
  weighted : Bool
  d : ℕ → ℚ
  dn : ℕ → ℚ
  vol : ℚ

/-- The COO→CSR accumulation scipy performs inside
`sp.csr_matrix((weights, (source, target)))`: duplicate `(u,v)` entries are
summed. -/
def cooMat (entries : List (ℕ × ℕ × ℚ)) : ℕ → ℕ → ℚ := fun u v =>
  ((entries.filter (fun e => decide (e.1 = u ∧ e.2.1 = v))).map (fun e => e.2.2)).sum

/-- Cast an integer-typed index list entry to ℕ (after `mkCsrChecked`'s bound
check every index is non-negative, so `toNat` is exact). -/
def natEntries (l : List (ℤ × ℤ × ℚ)) : List (ℕ × ℕ × ℚ) :=
  l.map (fun e => (e.1.toNat, e.2.1.toNat, e.2.2))

/-- scipy's `coo_matrix` index validation and accumulation: a negative shape,
a negative index or an index `≥ shape` raises `ValueError`; otherwise the
duplicate-summed matrix is built. -/
def mkCsrChecked (nv : ℤ) (entries : List (ℤ × ℤ × ℚ)) :
    Except Err (ℕ × (ℕ → ℕ → ℚ)) :=
  if 0 ≤ nv ∧ entries.all (fun e =>
      decide (0 ≤ e.1 ∧ e.1 < nv ∧ 0 ≤ e.2.1 ∧ e.2.1 < nv)) then
    Except.ok (nv.toNat, cooMat (natEntries entries))
  else Except.error Err.valueError

/-- `(self.adjacency_matrix != self.adjacency_matrix.T).sum() == 0`. -/
def isSymmB (n : ℕ) (A : ℕ → ℕ → ℚ) : Bool :=
  (List.range n).all (fun u => (List.range n).all (fun v => decide (A u v = A v u)))

/-- The symmetrisation formula of the source,
`A - A.multiply(sel) + A.T.multiply(sel)` with `sel = A.T > A`,
written elementwise. -/
def symSel (A : ℕ → ℕ → ℚ) : ℕ → ℕ → ℚ := fun u v =>
  A u v - (if A u v < A v u then A u v else 0) + (if A u v < A v u then A v u else 0)

/-- The symmetrisation block: skipped when the matrix is already symmetric,
otherwise the `symSel` update runs and the source's
`assert (A != A.T).sum() == 0` re-checks symmetry. -/
def symmetrizeChecked (n : ℕ) (A : ℕ → ℕ → ℚ) : Except Err (ℕ → ℕ → ℚ) :=
  if isSymmB n A then Except.ok A
  else if isSymmB n (symSel A) then Except.ok (symSel A)
  else Except.error Err.assertionError

/-- The `_weighted` detection loop: scan the stored entries, set the flag on
the first one `≠ 1` (a stored entry of the function embedding is a nonzero
position). -/
def weightedFlag (n : ℕ) (A : ℕ → ℕ → ℚ) : Bool :=
  (List.range n).any (fun u => (List.range n).any (fun v =>
    decide (A u v ≠ 0 ∧ A u v ≠ 1)))

/-- `adjacency_matrix.nnz`: number of stored entries. -/
def nnz (n : ℕ) (A : ℕ → ℕ → ℚ) : ℕ :=
  ((List.range n).map (fun u =>
    ((List.range n).filter (fun v => decide (A u v ≠ 0))).length)).sum

/-- `self.adjacency_matrix.sum(axis=1)` at row `i`. -/
def rowSum (n : ℕ) (A : ℕ → ℕ → ℚ) (i : ℕ) : ℚ :=
  ((List.range n).map (fun j => A i j)).sum

/-- `compute_statistics`: `d` = row sums, `dn` = zeros overwritten by `1/d`
where `d ≠ 0`, `vol_G` = sum of `d`.  (`d_sqrt`/`dn_sqrt`, the elementwise
square roots of `d`/`dn`, are determined by these fields and are not stored.) -/
def compute_statistics (g : GraphRec) : GraphRec :=
  { g with
    d := fun i => if i < g.n then rowSum g.n g.A i else 0
    dn := fun i => if i < g.n ∧ rowSum g.n g.A i ≠ 0 then (rowSum g.n g.A i)⁻¹ else 0
    vol := ((List.range g.n).map (fun i => rowSum g.n g.A i)).sum }

/-- The construction pipeline both `read_graph` (edgelist branch) and
`list_to_gl` share after their input marshalling: build the CSR matrix with
scipy's checks, set `_weighted` from the pre-symmetrisation data, symmetrise
(with the source's assert), set `_num_edges = nnz` and run
`compute_statistics`. -/
def buildCore (nv : ℤ) (entries : List (ℤ × ℤ × ℚ)) : Except Err GraphRec :=
  match mkCsrChecked nv entries with
  | Except.error e => Except.error e
  | Except.ok nM =>
    let w := weightedFlag nM.1 nM.2
    match symmetrizeChecked nM.1 nM.2 with
    | Except.error e => Except.error e
    | Except.ok A =>
      Except.ok (compute_statistics
        { n := nM.1, A := A, m := nnz nM.1 A, weighted := w,
          d := fun _ => 0, dn := fun _ => 0, vol := 0 })

/-- numpy's value-changing cast `np.array(source, dtype=np.uint32)`:
wraps modulo `2³²` (the era's numpy wraps negative inputs silently). -/
def castU32 (x : ℤ) : ℕ := (x % (2 ^ 32 : ℤ)).toNat

/-- Maximum of an integer list (`numpy .max()`); the `[]` case is unreachable
behind the nonempty guards (numpy raises on an empty `.max()`). -/
def intMax : List ℤ → ℤ
  | [] => 0
  | x :: xs => xs.foldl max x

/-- The directed edge list `list_to_gl` hands scipy, after the `uint32`
casts of `source` and `target`. -/
def glEntries (source target : List ℤ) (weights : List ℚ) : List (ℤ × ℤ × ℚ) :=
  ((source.map castU32).zip ((target.map castU32).zip weights)).map
    (fun e => ((e.1 : ℤ), (e.2.1 : ℤ), e.2.2))

/-- View a `uint32` array as its (non-negative) integer values. -/
def natsToInts (l : List ℕ) : List ℤ := List.map (fun x => Int.ofNat x) l

/-- `_num_vertices = max(source.max() + 1, target.max() + 1)` over the
`uint32`-cast arrays. -/
def glNumVertices (source target : List ℤ) : ℕ :=
  max (intMax (natsToInts (source.map castU32)) + 1).toNat
      (intMax (natsToInts (target.map castU32)) + 1).toNat

/-- `list_to_gl(source, target, weights)`: cast the id arrays to `uint32`,
derive `_num_vertices = max(source.max()+1, target.max()+1)`, and run the
shared construction pipeline.  Errors: empty input (`.max()` raises) and
mismatched array lengths (scipy raises); both are `ValueError`s. -/
def list_to_gl (source target : List ℤ) (weights : List ℚ) : Except Err GraphRec :=
  if source.length = target.length ∧ target.length = weights.length then
    if source = [] then Except.error Err.valueError
    else buildCore (glNumVertices source target : ℤ) (glEntries source target weights)
  else Except.error Err.valueError

/-- A parsed edge-list table as `pd.read_csv` returns it: a column count and
the rows.  The third component of a row is consulted only when `ncols = 3`. -/
structure Table where
  ncols : ℕ
  rows : List (ℤ × ℤ × ℚ)

/-- The `(source, target, weight)` triples `read_graph` extracts from a table:
two-column input gets the implicit weight `1.0`. -/
def tableEntries (t : Table) : List (ℤ × ℤ × ℚ) :=
  if t.ncols = 2 then t.rows.map (fun r => (r.1, r.2.1, (1 : ℚ))) else t.rows

/-- `_num_vertices = max(source.max() + 1, target.max() + 1)` (int64, so
negative ids flow through unchanged). -/
def tableNumVertices (t : Table) : ℤ :=
  max (intMax (t.rows.map (fun r => r.1)) + 1)
      (intMax (t.rows.map (fun r => r.2.1)) + 1)

/-- `read_graph` (edgelist branch) as a pure constructor: arity check,
nonempty check (numpy's `.max()`), then the shared pipeline. -/
def read_graph (t : Table) : Except Err GraphRec :=
  if t.ncols = 2 ∨ t.ncols = 3 then
    if t.rows = [] then Except.error Err.valueError
    else buildCore (tableNumVertices t) (tableEntries t)
  else Except.error Err.arityError

/-- A graph is built when some construction call produced it. -/
def Built (g : GraphRec) : Prop :=
  (∃ t, read_graph t = Except.ok g) ∨
  (∃ s t w, list_to_gl s t w = Except.ok g)

/-- Well-formedness every built graph enjoys: the adjacency is supported on
`[0,n)²` and the statistics agree with `compute_statistics` of the adjacency. -/
def GraphRec.Wf (g : GraphRec) : Prop :=
  (∀ u v, g.n ≤ u ∨ g.n ≤ v → g.A u v = 0) ∧
  (∀ i, g.d i = if i < g.n then rowSum g.n g.A i else 0) ∧
  (∀ i, g.dn i = if i < g.n ∧ rowSum g.n g.A i ≠ 0 then (rowSum g.n g.A i)⁻¹ else 0) ∧
  g.vol = ((List.range g.n).map (fun i => rowSum g.n g.A i)).sum

def defaultGraph : GraphRec :=
  { n := 0, A := fun _ _ => 0, m := 0, weighted := false,
    d := fun _ => 0, dn := fun _ => 0, vol := 0 }

/-- The spec's running example: the path graph on `{0,1,2,3}` with unit
edges `(0,1),(1,2),(2,3)`, built (directed, then symmetrised) by
`list_to_gl`. -/
def pathG : GraphRec :=
  (list_to_gl [0, 1, 2] [1, 2, 3] [1, 1, 1]).toOption.getD defaultGraph

/-- Row `i` of the CSR storage: the stored (nonzero) columns of row `i`, in
scipy's sorted order.  `neighbors` and the scoring loops iterate this. -/
def rowList (g : GraphRec) (i : ℕ) : List ℕ :=
  (List.range g.n).filter (fun j => decide (g.A i j ≠ 0))

/-- The nine locals `set_scores` returns (`return locals()` after the `del`s):
`voltrue, cut, voleff, sizetrue, sizeeff, edgestrue, edgeseff, cond, isop`. -/
structure ScoreRec where
  voltrue : ℚ
  cut : ℚ
  voleff : ℚ
  sizetrue : ℕ
  sizeeff : ℕ
  edgestrue : ℚ
  edgeseff : ℚ
  cond : ℚ
  isop : ℚ
deriving DecidableEq

/-- Modelled from the spec: `set_scores_cpp`, the accelerated scoring backend,
lives in the compiled `.cpp` extension package (`from .cpp import *`), whose
source is not part of this repository's files.  Following spec §4.4
("iterate only the rows of vertices in `R`, testing membership of each
neighbor in `R` via a transient lookup structure, accumulating cut
contributions directly"), it returns `voltrue = Σ_{v∈R} d[v]` and
`cut = Σ_{v∈R} Σ_{j ∈ row v, j ∉ R} w(v,j)`. -/
def set_scores_cpp (g : GraphRec) (R : List ℕ) : ℚ × ℚ :=
  ((R.map (fun v => g.d v)).sum,
   (R.map (fun v =>
     (((rowList g v).filter (fun j => decide (j ∉ R))).map (fun j => g.A v j)).sum)).sum)

/-- `set_scores(R, cpp)`: the reference branch (`cpp=False`) builds the
indicator vector `v_ones_R` and computes
`cut = voltrue - np.dot(v_ones_R, A.dot(v_ones_R.T))`; the accelerated branch
(`cpp=True`) delegates to `set_scores_cpp`.  The post-processing
(`voleff`, `sizetrue`, `sizeeff`, `edgestrue`, `edgeseff`, `cond`, `isop`)
is shared. -/
def set_scores (g : GraphRec) (R : List ℕ) (cpp : Bool) : ScoreRec :=
  let vc : ℚ × ℚ :=
    if cpp then set_scores_cpp g R
    else
      let voltrue := (R.map (fun v => g.d v)).sum
      let v_ones_R : ℕ → ℚ := fun v => if v ∈ R then 1 else 0
      (voltrue,
       voltrue - ((List.range g.n).map (fun u =>
         v_ones_R u * ((List.range g.n).map (fun v => g.A u v * v_ones_R v)).sum)).sum)
  let voltrue := vc.1
  let cut := vc.2
  let voleff := min voltrue (g.vol - voltrue)
  let sizetrue := R.length
  let sizeeff := if voleff < voltrue then g.n - sizetrue else sizetrue
  let edgestrue := voltrue - cut
  let edgeseff := voleff - cut
  let cond := if voleff ≠ 0 then cut / voleff else 1
  let isop := if sizeeff ≠ 0 then cut / (sizeeff : ℚ) else 1
  ⟨voltrue, cut, voleff, sizetrue, sizeeff, edgestrue, edgeseff, cond, isop⟩

/-! ### Construction invariants -/

theorem listSum_range (f : ℕ → ℚ) (n : ℕ) :
    ((List.range n).map f).sum = ∑ i ∈ Finset.range n, f i := by
  induction n with
  | zero => simp
  | succ k ih => simp [List.range_succ, Finset.sum_range_succ, ih]

theorem listSum_nodup_toFinset (l : List ℕ) (h : l.Nodup) (f : ℕ → ℚ) :
    (l.map f).sum = ∑ i ∈ l.toFinset, f i := by
  induction l with
  | nil => simp
  | cons a t ih =>
    rcases List.nodup_cons.mp h with ⟨ha, ht⟩
    have hmem : a ∉ t.toFinset := fun hm => ha (List.mem_toFinset.mp hm)
    rw [List.map_cons, List.sum_cons, List.toFinset_cons, Finset.sum_insert hmem, ih ht]

theorem mkCsrChecked_ok {nv : ℤ} {entries : List (ℤ × ℤ × ℚ)} {n : ℕ}
    {M : ℕ → ℕ → ℚ} (h : mkCsrChecked nv entries = Except.ok (n, M)) :
    n = nv.toNat ∧ M = cooMat (natEntries entries) ∧
      ∀ e ∈ natEntries entries, e.1 < n ∧ e.2.1 < n := by
  unfold mkCsrChecked at h
  by_cases hc : 0 ≤ nv ∧ entries.all (fun e =>
      decide (0 ≤ e.1 ∧ e.1 < nv ∧ 0 ≤ e.2.1 ∧ e.2.1 < nv))
  · rw [if_pos hc] at h
    injection h with h'
    have h1 : n = nv.toNat := (congrArg Prod.fst h').symm
    have h2 : M = cooMat (natEntries entries) := (congrArg Prod.snd h').symm
    refine ⟨h1, h2, ?_⟩
    intro e he
    rcases List.mem_map.mp he with ⟨e0, he0, rfl⟩
    have hb := of_decide_eq_true (List.all_eq_true.mp hc.2 e0 he0)
    rw [h1]
    constructor
    · dsimp only
      omega
    · dsimp only
      omega
  · rw [if_neg hc] at h
    exact absurd h (by simp)

theorem cooMat_support {l : List (ℕ × ℕ × ℚ)} {n : ℕ}
    (hb : ∀ e ∈ l, e.1 < n ∧ e.2.1 < n) {u v : ℕ} (h : n ≤ u ∨ n ≤ v) :
    cooMat l u v = 0 := by
  unfold cooMat
  have : l.filter (fun e => decide (e.1 = u ∧ e.2.1 = v)) = [] := by
    rw [List.filter_eq_nil]
    intro e he
    simp only [decide_eq_true_eq, not_and]
    intro h1 h2
    rcases h with h | h
    · exact absurd (hb e he).1 (by omega)
    · exact absurd (hb e he).2 (by omega)
  rw [this]
  simp

theorem symSel_eq_max (A : ℕ → ℕ → ℚ) (u v : ℕ) :
    symSel A u v = max (A u v) (A v u) := by
  unfold symSel
  by_cases h : A u v < A v u
  · rw [if_pos h, if_pos h, max_eq_right h.le]
    ring
  · rw [if_neg h, if_neg h, max_eq_left (not_lt.mp h)]
    ring

theorem isSymmB_iff (n : ℕ) (A : ℕ → ℕ → ℚ) :
    isSymmB n A = true ↔ ∀ u < n, ∀ v < n, A u v = A v u := by
  unfold isSymmB
  simp [List.all_eq_true, List.mem_range]

/-- Given in-range support, the symmetrisation step never raises and always
returns the elementwise max of the matrix and its transpose. -/
theorem symmetrizeChecked_total {n : ℕ} {M : ℕ → ℕ → ℚ}
    (hs : ∀ u v, n ≤ u ∨ n ≤ v → M u v = 0) :
    symmetrizeChecked n M = Except.ok (fun u v => max (M u v) (M v u)) := by
  unfold symmetrizeChecked
  by_cases h : isSymmB n M = true
  · rw [if_pos h]
    have hsym : ∀ u v, M u v = M v u := by
      intro u v
      by_cases hu : u < n
      · by_cases hv : v < n
        · exact (isSymmB_iff n M).mp h u hu v hv
        · rw [hs u v (Or.inr (by omega)), hs v u (Or.inl (by omega))]
      · rw [hs u v (Or.inl (by omega)), hs v u (Or.inr (by omega))]
    congr 1
    funext u v
    rw [← hsym u v, max_self]
  · rw [if_neg h]
    have h2 : isSymmB n (symSel M) = true := by
      rw [isSymmB_iff]
      intro u _ v _
      rw [symSel_eq_max, symSel_eq_max, max_comm]
    rw [if_pos h2]
    congr 1
    funext u v
    exact symSel_eq_max M u v

theorem buildCore_ok {nv : ℤ} {entries : List (ℤ × ℤ × ℚ)} {g : GraphRec}
    (h : buildCore nv entries = Except.ok g) :
    ∃ n M, mkCsrChecked nv entries = Except.ok (n, M) ∧
      (∀ e ∈ natEntries entries, e.1 < n ∧ e.2.1 < n) ∧
      g = compute_statistics
        { n := n, A := fun u v => max (M u v) (M v u),
          m := nnz n (fun u v => max (M u v) (M v u)),
          weighted := weightedFlag n M,
          d := fun _ => 0, dn := fun _ => 0, vol := 0 } := by
  unfold buildCore at h
  cases hm : mkCsrChecked nv entries with
  | error e =>
    rw [hm] at h
    simp at h
  | ok nM =>
    obtain ⟨n, M⟩ := nM
    rw [hm] at h
    dsimp only at h
    obtain ⟨-, -, hbnd⟩ := mkCsrChecked_ok hm
    have hs : ∀ u v, n ≤ u ∨ n ≤ v → M u v = 0 := by
      obtain ⟨-, hM, hb⟩ := mkCsrChecked_ok hm
      intro u v huv
      rw [hM]
      exact cooMat_support hb huv
    rw [symmetrizeChecked_total hs] at h
    simp only [] at h
    exact ⟨n, M, rfl, hbnd, (Except.ok.inj h).symm⟩

/-- Every successful construction yields a well-formed graph. -/
theorem built_wf {g : GraphRec} (h : Built g) : g.Wf := by
  have core : ∀ (nv : ℤ) (entries : List (ℤ × ℤ × ℚ)),
      buildCore nv entries = Except.ok g → g.Wf := by
    intro nv entries hb
    obtain ⟨n, M, hm, hbnd, rfl⟩ := buildCore_ok hb
    have hAs : ∀ u v, n ≤ u ∨ n ≤ v → max (M u v) (M v u) = 0 := by
      obtain ⟨-, hM, hb'⟩ := mkCsrChecked_ok hm
      intro u v huv
      rw [hM, cooMat_support hb' huv, cooMat_support hb' (huv.symm), max_self]
    refine ⟨?_, fun i => rfl, fun i => rfl, rfl⟩
    intro u v huv
    exact hAs u v huv
  rcases h with ⟨t, ht⟩ | ⟨s, t, w, hl⟩
  · unfold read_graph at ht
    by_cases h1 : t.ncols = 2 ∨ t.ncols = 3
    · rw [if_pos h1] at ht
      by_cases h2 : t.rows = []
      · rw [if_pos h2] at ht; exact absurd ht (by simp)
      · rw [if_neg h2] at ht; exact core _ _ ht
    · rw [if_neg h1] at ht; exact absurd ht (by simp)
  · unfold list_to_gl at hl
    by_cases h1 : s.length = t.length ∧ t.length = w.length
    · rw [if_pos h1] at hl
      by_cases h2 : s = []
      · rw [if_pos h2] at hl; exact absurd hl (by simp)
      · rw [if_neg h2] at hl; exact core _ _ hl
    · rw [if_neg h1] at hl; exact absurd hl (by simp)

/-! ### C1/C2: the set-scoring engine -/

theorem listSum_filter_mem (R : List ℕ) (hnd : R.Nodup) (n : ℕ)
    (hR : ∀ v ∈ R, v < n) (f : ℕ → ℚ) :
    ((List.range n).map (fun v => (if v ∈ R then (1 : ℚ) else 0) * f v)).sum
      = (R.map f).sum := by
  have hsub : R.toFinset ⊆ Finset.range n := fun x hx =>
    Finset.mem_range.mpr (hR x (List.mem_toFinset.mp hx))
  rw [listSum_range, listSum_nodup_toFinset R hnd]
  have : (fun v => (if v ∈ R then (1 : ℚ) else 0) * f v)
      = fun v => if v ∈ R.toFinset then f v else 0 := by
    funext v
    by_cases h : v ∈ R
    · simp [h]
    · simp [h]
  rw [this, Finset.sum_ite_mem, Finset.inter_eq_right.mpr hsub]

theorem mapCongr {α β : Type} {l : List α} {f g : α → β}
    (h : ∀ a ∈ l, f a = g a) : l.map f = l.map g := by
  induction l with
  | nil => rfl
  | cons a t ih =>
    rw [List.map_cons, List.map_cons, h a (List.mem_cons_self a t),
        ih (fun x hx => h x (List.mem_cons_of_mem a hx))]

theorem indicator_quadratic (n : ℕ) (A : ℕ → ℕ → ℚ) (R : List ℕ)
    (hnd : R.Nodup) (hR : ∀ v ∈ R, v < n) :
    ((List.range n).map (fun u => (if u ∈ R then (1 : ℚ) else 0) *
        ((List.range n).map (fun v => A u v * (if v ∈ R then (1 : ℚ) else 0))).sum)).sum
      = (R.map (fun u => (R.map (fun v => A u v)).sum)).sum := by
  have inner : ∀ u, ((List.range n).map
      (fun v => A u v * (if v ∈ R then (1 : ℚ) else 0))).sum = (R.map (fun v => A u v)).sum := by
    intro u
    rw [show (List.range n).map (fun v => A u v * (if v ∈ R then (1 : ℚ) else 0))
        = (List.range n).map (fun v => (if v ∈ R then (1 : ℚ) else 0) * A u v) from
      mapCongr (fun v _ => mul_comm _ _)]
    exact listSum_filter_mem R hnd n hR (fun v => A u v)
  calc ((List.range n).map (fun u => (if u ∈ R then (1 : ℚ) else 0) *
        ((List.range n).map (fun v => A u v * (if v ∈ R then (1 : ℚ) else 0))).sum)).sum
      = ((List.range n).map (fun u => (if u ∈ R then (1 : ℚ) else 0) *
          (R.map (fun v => A u v)).sum)).sum := by
        rw [mapCongr (fun u _ => by rw [inner u])]
    _ = (R.map (fun u => (R.map (fun v => A u v)).sum)).sum :=
        listSum_filter_mem R hnd n hR _

/-- The `if voleff < voltrue` test of the source is the negation of the
`voleff == voltrue` phrasing of the spec, because `voleff ≤ voltrue` always. -/
theorem ite_voleff (vt x : ℚ) (a b : ℕ) :
    (if min vt x < vt then a else b) = (if min vt x = vt then b else a) := by
  by_cases h : min vt x = vt
  · rw [if_pos h, h, if_neg (lt_irrefl vt)]
  · rw [if_neg h, if_pos (lt_of_le_of_ne (min_le_left vt x) h)]

/-- C1: with `cpp=False`, `set_scores` returns
`voltrue = Σ_{v∈R} d[v]`,
`cut = voltrue − Σ_{u∈R} Σ_{v∈R} A[u][v]` (the quadratic form over the stored
entries with both endpoints in `R`), `voleff = min(voltrue, vol_G − voltrue)`,
`sizetrue = |R|`, `sizeeff = |R|` iff `voleff = voltrue` (else `n − |R|`),
`edgestrue = voltrue − cut`, `edgeseff = voleff − cut`, and the sentinel-1
quotients `cond` and `isop`. -/
theorem set_scores_reference_spec (g : GraphRec) (hg : Built g) (R : List ℕ)
    (hnd : R.Nodup) (hR : ∀ v ∈ R, v < g.n) :
    set_scores g R false =
      { voltrue := (R.map (fun v => g.d v)).sum
        cut := (R.map (fun v => g.d v)).sum -
          (R.map (fun u => (R.map (fun v => g.A u v)).sum)).sum
        voleff := min (R.map (fun v => g.d v)).sum
          (g.vol - (R.map (fun v => g.d v)).sum)
        sizetrue := R.length
        sizeeff :=
          if min (R.map (fun v => g.d v)).sum (g.vol - (R.map (fun v => g.d v)).sum)
              = (R.map (fun v => g.d v)).sum
          then R.length else g.n - R.length
        edgestrue := (R.map (fun u => (R.map (fun v => g.A u v)).sum)).sum
        edgeseff := min (R.map (fun v => g.d v)).sum
            (g.vol - (R.map (fun v => g.d v)).sum) -
          ((R.map (fun v => g.d v)).sum -
            (R.map (fun u => (R.map (fun v => g.A u v)).sum)).sum)
        cond :=
          if min (R.map (fun v => g.d v)).sum (g.vol - (R.map (fun v => g.d v)).sum) ≠ 0
          then ((R.map (fun v => g.d v)).sum -
              (R.map (fun u => (R.map (fun v => g.A u v)).sum)).sum) /
            min (R.map (fun v => g.d v)).sum (g.vol - (R.map (fun v => g.d v)).sum)
          else 1
        isop :=
          if (if min (R.map (fun v => g.d v)).sum (g.vol - (R.map (fun v => g.d v)).sum)
                = (R.map (fun v => g.d v)).sum
              then R.length else g.n - R.length) ≠ 0
          then ((R.map (fun v => g.d v)).sum -
              (R.map (fun u => (R.map (fun v => g.A u v)).sum)).sum) /
            ((if min (R.map (fun v => g.d v)).sum (g.vol - (R.map (fun v => g.d v)).sum)
                  = (R.map (fun v => g.d v)).sum
              then R.length else g.n - R.length : ℕ) : ℚ)
          else 1 } := by
  clear hg
  unfold set_scores
  have hcut : ((List.range g.n).map (fun u => (if u ∈ R then (1 : ℚ) else 0) *
      ((List.range g.n).map (fun v => g.A u v * (if v ∈ R then (1 : ℚ) else 0))).sum)).sum
      = (R.map (fun u => (R.map (fun v => g.A u v)).sum)).sum :=
    indicator_quadratic g.n g.A R hnd hR
  simp only [Bool.false_eq_true, if_false, hcut]
  rw [ite_voleff]
  ring_nf

theorem filter_sum_split (l : List ℕ) (p : ℕ → Bool) (f : ℕ → ℚ) :
    ((l.filter p).map f).sum + ((l.filter (fun x => !(p x))).map f).sum = (l.map f).sum := by
  induction l with
  | nil => simp
  | cons a t ih =>
    by_cases h : p a = true
    · rw [List.filter_cons_of_pos h, List.filter_cons_of_neg (by simp [h]),
        List.map_cons, List.sum_cons, add_assoc, ih, List.map_cons, List.sum_cons]
    · rw [List.filter_cons_of_neg h, List.filter_cons_of_pos (by simpa using h),
        List.map_cons, List.sum_cons, List.map_cons, List.sum_cons, ← ih]
      ring

theorem mapSum_sub (l : List ℕ) (f g : ℕ → ℚ) :
    (l.map (fun x => f x - g x)).sum = (l.map f).sum - (l.map g).sum := by
  induction l with
  | nil => simp
  | cons a t ih => simp [List.map_cons, List.sum_cons, ih]; ring

/-- Dropping the zero entries of a row does not change its sum: the sum of
the stored entries of row `v` is the row sum. -/
theorem rowList_sum (g : GraphRec) (v : ℕ) :
    ((rowList g v).map (fun j => g.A v j)).sum = rowSum g.n g.A v := by
  unfold rowList rowSum
  rw [← filter_sum_split (List.range g.n) (fun j => decide (g.A v j ≠ 0)) (fun j => g.A v j)]
  have hz : ((List.range g.n).filter (fun j => !(decide (g.A v j ≠ 0)))).map
      (fun j => g.A v j) = ((List.range g.n).filter (fun j => !(decide (g.A v j ≠ 0)))).map
      (fun _ => (0 : ℚ)) := by
    apply mapCongr
    intro j hj
    have := (List.mem_filter.mp hj).2
    simp only [Bool.not_eq_true', decide_eq_false_iff_not, not_not] at this
    exact this
  rw [hz, List.map_const', List.sum_replicate, smul_zero, add_zero]

/-- The in-`R` part of a stored row sums to the full `Σ_{j∈R} A v j`. -/
theorem rowList_filter_mem_sum (g : GraphRec) (R : List ℕ) (hnd : R.Nodup)
    (hR : ∀ x ∈ R, x < g.n) (v : ℕ) :
    (((rowList g v).filter (fun j => decide (j ∈ R))).map (fun j => g.A v j)).sum
      = (R.map (fun j => g.A v j)).sum := by
  rw [← filter_sum_split R (fun j => decide (g.A v j ≠ 0)) (fun j => g.A v j)]
  have hz : ((R.filter (fun j => !(decide (g.A v j ≠ 0)))).map (fun j => g.A v j)).sum = 0 := by
    have : (R.filter (fun j => !(decide (g.A v j ≠ 0)))).map (fun j => g.A v j)
        = (R.filter (fun j => !(decide (g.A v j ≠ 0)))).map (fun _ => (0 : ℚ)) := by
      apply mapCongr
      intro j hj
      have := (List.mem_filter.mp hj).2
      simp only [Bool.not_eq_true', decide_eq_false_iff_not, not_not] at this
      exact this
    rw [this, List.map_const', List.sum_replicate, smul_zero]
  rw [hz, add_zero]
  have hnd1 : ((rowList g v).filter (fun j => decide (j ∈ R))).Nodup :=
    ((List.nodup_range g.n).filter _).filter _
  have hnd2 : (R.filter (fun j => decide (g.A v j ≠ 0))).Nodup := hnd.filter _
  rw [listSum_nodup_toFinset _ hnd1, listSum_nodup_toFinset _ hnd2]
  apply Finset.sum_congr _ (fun _ _ => rfl)
  apply Finset.ext
  intro j
  simp only [List.mem_toFinset, List.mem_filter, rowList, List.mem_range,
    decide_eq_true_eq]
  constructor
  · rintro ⟨⟨hj, hnz⟩, hjR⟩
    exact ⟨hjR, hnz⟩
  · rintro ⟨hjR, hnz⟩
    exact ⟨⟨hR j hjR, hnz⟩, hjR⟩

/-- C2: the accelerated strategy returns the same nine fields as the
reference strategy — in this exact-arithmetic embedding they are equal
outright, which in particular is agreement within `1e-9` absolute error. -/
theorem set_scores_cpp_agrees (g : GraphRec) (hg : Built g) (R : List ℕ)
    (hnd : R.Nodup) (hR : ∀ v ∈ R, v < g.n) :
    set_scores g R true = set_scores g R false := by
  obtain ⟨-, hd, -, -⟩ := built_wf hg
  have hpair : set_scores_cpp g R =
      ((R.map (fun v => g.d v)).sum,
       (R.map (fun v => g.d v)).sum -
         ((List.range g.n).map (fun u => (if u ∈ R then (1 : ℚ) else 0) *
           ((List.range g.n).map (fun v => g.A u v * (if v ∈ R then (1 : ℚ) else 0))).sum)).sum) := by
    unfold set_scores_cpp
    rw [indicator_quadratic g.n g.A R hnd hR]
    refine congrArg (Prod.mk _) ?_
    have hrow : ∀ v ∈ R, (((rowList g v).filter (fun j => decide (j ∉ R))).map
        (fun j => g.A v j)).sum
        = g.d v - (R.map (fun j => g.A v j)).sum := by
      intro v hv
      have hsplit := filter_sum_split (rowList g v) (fun j => decide (j ∈ R))
        (fun j => g.A v j)
      have hneg : (rowList g v).filter (fun j => !(decide (j ∈ R)))
          = (rowList g v).filter (fun j => decide (j ∉ R)) := by
        apply List.filter_congr
        intro x _
        by_cases hx : x ∈ R
        · simp [hx]
        · simp [hx]
      rw [hneg] at hsplit
      have : (((rowList g v).filter (fun j => decide (j ∉ R))).map (fun j => g.A v j)).sum
          = ((rowList g v).map (fun j => g.A v j)).sum
            - (((rowList g v).filter (fun j => decide (j ∈ R))).map (fun j => g.A v j)).sum := by
        rw [← hsplit]; ring
      rw [this, rowList_sum, rowList_filter_mem_sum g R hnd hR v, hd v,
        if_pos (hR v hv)]
    rw [mapCongr hrow, mapSum_sub]
  unfold set_scores
  simp only [if_true, Bool.false_eq_true, if_false, hpair]

def pathG_built : Built pathG :=
  Or.inr ⟨[0, 1, 2], [1, 2, 3], [1, 1, 1], by with_unfolding_all rfl⟩

/-- Witness for C1: the spec's path-graph example, `score({0,1})` with the
reference strategy: `volTrue=3, cut=1, volEff=3, cond=1/3, sizeEff=2,
isop=1/2`. -/
theorem set_scores_reference_spec_witness :
    Built pathG ∧ List.Nodup [0, 1] ∧ (∀ v ∈ [0, 1], v < pathG.n) ∧
    set_scores pathG [0, 1] false =
      { voltrue := 3, cut := 1, voleff := 3, sizetrue := 2, sizeeff := 2,
        edgestrue := 2, edgeseff := 2, cond := 1/3, isop := 1/2 } :=
  ⟨pathG_built, by decide, by with_unfolding_all decide, by
    rw [set_scores_reference_spec pathG pathG_built [0, 1] (by decide)
      (by with_unfolding_all decide)]
    with_unfolding_all decide⟩

/-- Witness for C2: on the path-graph example both strategies return the
same record. -/
theorem set_scores_cpp_agrees_witness :
    Built pathG ∧ List.Nodup [0, 1] ∧ (∀ v ∈ [0, 1], v < pathG.n) ∧
    set_scores pathG [0, 1] true = set_scores pathG [0, 1] false :=
  ⟨pathG_built, by decide, by with_unfolding_all decide,
    set_scores_cpp_agrees pathG pathG_built [0, 1] (by decide)
      (by with_unfolding_all decide)⟩

/-! ### C3: symmetrisation at construction -/

theorem foldlMax_init_le (l : List ℤ) (b : ℤ) : b ≤ l.foldl max b := by
  induction l generalizing b with
  | nil => exact le_refl b
  | cons a t ih => exact le_trans (le_max_left b a) (ih (max b a))

theorem foldlMax_mem_le (l : List ℤ) (b : ℤ) (x : ℤ) (hx : x ∈ l) :
    x ≤ l.foldl max b := by
  induction l generalizing b with
  | nil => cases hx
  | cons a t ih =>
    rcases List.mem_cons.mp hx with rfl | hx'
    · exact le_trans (le_max_right b x) (foldlMax_init_le t (max b x))
    · exact ih (max b a) hx'

theorem mem_natsToInts {l : List ℕ} {x : ℕ} (hx : x ∈ l) : (x : ℤ) ∈ natsToInts l :=
  List.mem_map_of_mem (fun x => Int.ofNat x) hx

theorem le_intMax (l : List ℤ) (x : ℤ) (hx : x ∈ l) : x ≤ intMax l := by
  cases l with
  | nil => cases hx
  | cons a t =>
    rcases List.mem_cons.mp hx with rfl | hx'
    · exact foldlMax_init_le t x
    · exact foldlMax_mem_le t a x hx'

/-- Every `uint32`-cast entry of `list_to_gl` passes scipy's index check
against the derived vertex count. -/
theorem glEntries_bounds (s t : List ℤ) (w : List ℚ) :
    ∀ e ∈ glEntries s t w,
      0 ≤ e.1 ∧ e.1 < (glNumVertices s t : ℤ) ∧
      0 ≤ e.2.1 ∧ e.2.1 < (glNumVertices s t : ℤ) := by
  intro e he
  unfold glEntries at he
  rcases List.mem_map.mp he with ⟨p, hp, rfl⟩
  have hp1 := (List.mem_zip hp).1
  have hp2 := (List.mem_zip (List.mem_zip hp).2).1
  have hs : ((p.1 : ℤ)) ≤ intMax (natsToInts (s.map castU32)) :=
    le_intMax _ _ (mem_natsToInts hp1)
  have ht : ((p.2.1 : ℤ)) ≤ intMax (natsToInts (t.map castU32)) :=
    le_intMax _ _ (mem_natsToInts hp2)
  have hcast : ∀ a : ℤ, a + 1 ≤ ((a + 1).toNat : ℤ) := fun a => Int.self_le_toNat (a + 1)
  refine ⟨Int.natCast_nonneg p.1, ?_, Int.natCast_nonneg p.2.1, ?_⟩
  · calc ((p.1 : ℤ)) < intMax (natsToInts (s.map castU32)) + 1 := by omega
      _ ≤ (((intMax (natsToInts (s.map castU32)) + 1).toNat : ℕ) : ℤ) := hcast _
      _ ≤ (glNumVertices s t : ℤ) := by
          unfold glNumVertices
          rw [Nat.cast_max]
          exact le_max_left _ _
  · calc ((p.2.1 : ℤ)) < intMax (natsToInts (t.map castU32)) + 1 := by omega
      _ ≤ (((intMax (natsToInts (t.map castU32)) + 1).toNat : ℕ) : ℤ) := hcast _
      _ ≤ (glNumVertices s t : ℤ) := by
          unfold glNumVertices
          rw [Nat.cast_max]
          exact le_max_right _ _

/-- When scipy's checks pass, the whole pipeline succeeds (in particular the
post-symmetrisation assert cannot fire). -/
theorem buildCore_ok_of_checks (nv : ℤ) (entries : List (ℤ × ℤ × ℚ))
    (h0 : 0 ≤ nv)
    (hb : ∀ e ∈ entries, 0 ≤ e.1 ∧ e.1 < nv ∧ 0 ≤ e.2.1 ∧ e.2.1 < nv) :
    ∃ g, buildCore nv entries = Except.ok g := by
  have hcsr : mkCsrChecked nv entries
      = Except.ok (nv.toNat, cooMat (natEntries entries)) := by
    unfold mkCsrChecked
    rw [if_pos ⟨h0, List.all_eq_true.mpr (fun e he => decide_eq_true (hb e he))⟩]
  have hbnd : ∀ e ∈ natEntries entries, e.1 < nv.toNat ∧ e.2.1 < nv.toNat := by
    intro e he
    rcases List.mem_map.mp he with ⟨e0, he0, rfl⟩
    have := hb e0 he0
    dsimp only
    omega
  have hs : ∀ u v, nv.toNat ≤ u ∨ nv.toNat ≤ v → cooMat (natEntries entries) u v = 0 :=
    fun u v huv => cooMat_support hbnd huv
  unfold buildCore
  rw [hcsr]
  dsimp only
  rw [symmetrizeChecked_total hs]
  exact ⟨_, rfl⟩

/-- The adjacency a successful `buildCore` stores is the elementwise max of
the duplicate-summed input matrix and its transpose. -/
theorem built_A_max {nv : ℤ} {entries : List (ℤ × ℤ × ℚ)} {g : GraphRec}
    (h : buildCore nv entries = Except.ok g) :
    ∀ u v, g.A u v = max (cooMat (natEntries entries) u v)
      (cooMat (natEntries entries) v u) := by
  obtain ⟨n, M, hm, -, rfl⟩ := buildCore_ok h
  obtain ⟨-, hM, -⟩ := mkCsrChecked_ok hm
  intro u v
  rw [hM]
  rfl

/-- C3: construction (`read_graph` or `list_to_gl`) always stores a symmetric
adjacency; each unordered pair is reconciled by overwriting both directions
with the larger of the two directed weights (elementwise max of the
duplicate-summed input matrix with its transpose); asymmetric input never
raises — `list_to_gl` succeeds for every length-consistent nonempty input,
and the pipeline's post-symmetrisation assert can never fire. -/
theorem construction_symmetrizes :
    (∀ t g, read_graph t = Except.ok g →
      (∀ u v, g.A u v = g.A v u) ∧
      (∀ u v, g.A u v = max (cooMat (natEntries (tableEntries t)) u v)
                            (cooMat (natEntries (tableEntries t)) v u))) ∧
    (∀ s t w g, list_to_gl s t w = Except.ok g →
      (∀ u v, g.A u v = g.A v u) ∧
      (∀ u v, g.A u v = max (cooMat (natEntries (glEntries s t w)) u v)
                            (cooMat (natEntries (glEntries s t w)) v u))) ∧
    (∀ s t w, s.length = t.length → t.length = w.length → s ≠ [] →
      ∃ g, list_to_gl s t w = Except.ok g) ∧
    (∀ nv entries, buildCore nv entries ≠ Except.error Err.assertionError) := by
  have hmax : ∀ {nv entries} {g : GraphRec}, buildCore nv entries = Except.ok g →
      (∀ u v, g.A u v = g.A v u) ∧
      (∀ u v, g.A u v = max (cooMat (natEntries entries) u v)
                            (cooMat (natEntries entries) v u)) := by
    intro nv entries g h
    refine ⟨fun u v => ?_, built_A_max h⟩
    rw [built_A_max h u v, built_A_max h v u, max_comm]
  refine ⟨?_, ?_, ?_, ?_⟩
  · intro t g ht
    unfold read_graph at ht
    by_cases h1 : t.ncols = 2 ∨ t.ncols = 3
    · rw [if_pos h1] at ht
      by_cases h2 : t.rows = []
      · rw [if_pos h2] at ht; exact absurd ht (by simp)
      · rw [if_neg h2] at ht; exact hmax ht
    · rw [if_neg h1] at ht; exact absurd ht (by simp)
  · intro s t w g hl
    unfold list_to_gl at hl
    by_cases h1 : s.length = t.length ∧ t.length = w.length
    · rw [if_pos h1] at hl
      by_cases h2 : s = []
      · rw [if_pos h2] at hl; exact absurd hl (by simp)
      · rw [if_neg h2] at hl; exact hmax hl
    · rw [if_neg h1] at hl; exact absurd hl (by simp)
  · intro s t w hst htw hne
    unfold list_to_gl
    rw [if_pos ⟨hst, htw⟩, if_neg hne]
    exact buildCore_ok_of_checks _ _ (Int.natCast_nonneg _) (glEntries_bounds s t w)
  · intro nv entries h
    cases hm : mkCsrChecked nv entries with
    | error e =>
      unfold buildCore at h
      rw [hm] at h
      dsimp only at h
      have : e = Err.assertionError := Except.error.inj h
      subst this
      unfold mkCsrChecked at hm
      by_cases hc : 0 ≤ nv ∧ entries.all (fun e =>
          decide (0 ≤ e.1 ∧ e.1 < nv ∧ 0 ≤ e.2.1 ∧ e.2.1 < nv))
      · rw [if_pos hc] at hm; exact absurd hm (by simp)
      · rw [if_neg hc] at hm
        exact absurd (Except.error.inj hm) (by simp)
    | ok nM =>
      obtain ⟨n, M⟩ := nM
      obtain ⟨-, -, hbnd⟩ := mkCsrChecked_ok hm
      have hs : ∀ u v, n ≤ u ∨ n ≤ v → M u v = 0 := by
        obtain ⟨-, hM, hb⟩ := mkCsrChecked_ok hm
        intro u v huv
        rw [hM]
        exact cooMat_support hb huv
      unfold buildCore at h
      rw [hm] at h
      dsimp only at h
      rw [symmetrizeChecked_total hs] at h
      exact absurd h (by simp)

/-! ### C7: the local-extrema scan -/

/-- The inner loop of `local_extrema` over one CSR row: skip self-loops,
keep scanning while the comparison holds, break (return `false`) at the
first failure. -/
def extremaRowCheck (strict : Bool) (factor : ℚ) (vals : ℕ → ℚ) (i : ℕ) :
    List ℕ → Bool
  | [] => true
  | v :: rest =>
    if v = i then extremaRowCheck strict factor vals i rest
    else if (if strict then decide (factor * vals i < factor * vals v)
             else decide (factor * vals i ≤ factor * vals v)) then
      extremaRowCheck strict factor vals i rest
    else false

/-- `local_extrema(vals, strict, reverse)`: `factor = -1` when `reverse`,
scan each vertex's row, collect qualifying vertices in ascending order, and
return them with `vals[minverts]`. -/
def local_extrema (g : GraphRec) (vals : ℕ → ℚ) (strict reverse : Bool) :
    List ℕ × List ℚ :=
  let factor : ℚ := if reverse then -1 else 1
  let minverts := (List.range g.n).filter
    (fun i => extremaRowCheck strict factor vals i (rowList g i))
  (minverts, minverts.map vals)

theorem extremaRowCheck_iff (strict : Bool) (factor : ℚ) (vals : ℕ → ℚ)
    (i : ℕ) (l : List ℕ) :
    extremaRowCheck strict factor vals i l = true ↔
      ∀ j ∈ l, j ≠ i →
        (if strict then factor * vals i < factor * vals j
         else factor * vals i ≤ factor * vals j) := by
  induction l with
  | nil =>
    simp [extremaRowCheck]
  | cons v rest ih =>
    unfold extremaRowCheck
    by_cases hv : v = i
    · rw [if_pos hv, ih]
      constructor
      · intro h j hj hji
        rcases List.mem_cons.mp hj with rfl | hj'
        · exact absurd hv hji
        · exact h j hj' hji
      · intro h j hj hji
        exact h j (List.mem_cons_of_mem v hj) hji
    · rw [if_neg hv]
      by_cases hc : (if strict then decide (factor * vals i < factor * vals v)
          else decide (factor * vals i ≤ factor * vals v)) = true
      · rw [if_pos hc, ih]
        have hcmp : if strict then factor * vals i < factor * vals v
            else factor * vals i ≤ factor * vals v := by
          by_cases hstrict : strict = true
          · rw [hstrict] at hc ⊢
            simp only [if_true] at hc ⊢
            exact of_decide_eq_true hc
          · have hf : strict = false := Bool.not_eq_true _ ▸ hstrict
            rw [hf] at hc ⊢
            simp only [Bool.false_eq_true, if_false] at hc ⊢
            exact of_decide_eq_true hc
        constructor
        · intro h j hj hji
          rcases List.mem_cons.mp hj with rfl | hj'
          · exact hcmp
          · exact h j hj' hji
        · intro h j hj hji
          exact h j (List.mem_cons_of_mem v hj) hji
      · rw [if_neg hc]
        constructor
        · intro h
          exact absurd h (by simp)
        · intro h
          exfalso
          apply hc
          have := h v (List.mem_cons_self v rest) hv
          by_cases hstrict : strict = true
          · rw [hstrict] at this ⊢
            simp only [if_true] at this ⊢
            exact decide_eq_true this
          · have hf : strict = false := Bool.not_eq_true _ ▸ hstrict
            rw [hf] at this ⊢
            simp only [Bool.false_eq_true, if_false] at this ⊢
            exact decide_eq_true this

/-- C7: `local_extrema` returns exactly the vertices `i < n` all of whose
stored neighbours `j ≠ i` (self-loops skipped) satisfy
`factor·vals[i] ≤ factor·vals[j]` (or `<` in strict mode), with
`factor = -1` iff `reverse`; isolated vertices qualify vacuously; the vertex
list is in ascending order and the value list is `vals` at those vertices,
positionally matched. -/
theorem local_extrema_spec (g : GraphRec) (vals : ℕ → ℚ) (strict reverse : Bool) :
    (∀ i, i ∈ (local_extrema g vals strict reverse).1 ↔
      (i < g.n ∧ ∀ j, j < g.n → g.A i j ≠ 0 → j ≠ i →
        (if strict
         then (if reverse then (-1 : ℚ) else 1) * vals i
            < (if reverse then (-1 : ℚ) else 1) * vals j
         else (if reverse then (-1 : ℚ) else 1) * vals i
            ≤ (if reverse then (-1 : ℚ) else 1) * vals j))) ∧
    List.Sorted (· < ·) (local_extrema g vals strict reverse).1 ∧
    (local_extrema g vals strict reverse).2
      = (local_extrema g vals strict reverse).1.map vals := by
  refine ⟨?_, ?_, rfl⟩
  · intro i
    unfold local_extrema
    rw [List.mem_filter, List.mem_range, extremaRowCheck_iff]
    constructor
    · rintro ⟨hi, hrow⟩
      refine ⟨hi, fun j hj hnz hji => ?_⟩
      exact hrow j (List.mem_filter.mpr ⟨List.mem_range.mpr hj, decide_eq_true hnz⟩) hji
    · rintro ⟨hi, hall⟩
      refine ⟨hi, fun j hj hji => ?_⟩
      have hj' := List.mem_filter.mp hj
      exact hall j (List.mem_range.mp hj'.1) (of_decide_eq_true hj'.2) hji
  · exact (List.pairwise_lt_range g.n).filter _

/-! ### C8: `discard_weights` -/

/-- `discard_weights`: `self.adjacency_matrix.data.fill(1.0)` (every stored
entry becomes `1`), `self._weighted = False`, then `compute_statistics`. -/
def discard_weights (g : GraphRec) : GraphRec :=
  compute_statistics
    { g with A := fun u v => if g.A u v ≠ 0 then 1 else 0, weighted := false }

theorem graphRec_ext {g1 g2 : GraphRec} (hn : g1.n = g2.n) (hA : g1.A = g2.A)
    (hm : g1.m = g2.m) (hw : g1.weighted = g2.weighted) (hd : g1.d = g2.d)
    (hdn : g1.dn = g2.dn) (hv : g1.vol = g2.vol) : g1 = g2 := by
  cases g1
  cases g2
  dsimp only at hn hA hm hw hd hdn hv
  subst hn hA hm hw hd hdn hv
  rfl

theorem buildCore_fields {nv : ℤ} {entries : List (ℤ × ℤ × ℚ)} {g : GraphRec}
    (h : buildCore nv entries = Except.ok g) :
    g.n = nv.toNat ∧
    g.m = nnz g.n g.A ∧
    g.weighted = weightedFlag nv.toNat (cooMat (natEntries entries)) ∧
    g.d = (fun i => if i < g.n then rowSum g.n g.A i else 0) ∧
    g.dn = (fun i => if i < g.n ∧ rowSum g.n g.A i ≠ 0
      then (rowSum g.n g.A i)⁻¹ else 0) ∧
    g.vol = ((List.range g.n).map (fun i => rowSum g.n g.A i)).sum := by
  obtain ⟨n, M, hm, -, rfl⟩ := buildCore_ok h
  obtain ⟨hn, hM, -⟩ := mkCsrChecked_ok hm
  subst hn hM
  exact ⟨rfl, rfl, rfl, rfl, rfl, rfl⟩

theorem list_to_gl_ok {s t : List ℤ} {w : List ℚ} {g : GraphRec}
    (h : list_to_gl s t w = Except.ok g) :
    buildCore (glNumVertices s t : ℤ) (glEntries s t w) = Except.ok g ∧
    s.length = t.length ∧ t.length = w.length ∧ s ≠ [] := by
  unfold list_to_gl at h
  by_cases h1 : s.length = t.length ∧ t.length = w.length
  · rw [if_pos h1] at h
    by_cases h2 : s = []
    · rw [if_pos h2] at h; exact absurd h (by simp)
    · rw [if_neg h2] at h; exact ⟨h, h1.1, h1.2, h2⟩
  · rw [if_neg h1] at h; exact absurd h (by simp)

/-- The ℕ-level entry list of `list_to_gl`: `uint32`-cast sources zipped
with cast targets and weights. -/
theorem natEntries_glEntries (s t : List ℤ) (w : List ℚ) :
    natEntries (glEntries s t w) = (s.map castU32).zip ((t.map castU32).zip w) := by
  unfold natEntries glEntries
  rw [List.map_map]
  have : ((fun e : ℤ × ℤ × ℚ => (e.1.toNat, e.2.1.toNat, e.2.2)) ∘
      (fun e : ℕ × ℕ × ℚ => ((e.1 : ℤ), (e.2.1 : ℤ), e.2.2)))
      = fun e : ℕ × ℕ × ℚ => e := by
    funext e
    obtain ⟨a, b, c⟩ := e
    simp [Function.comp, Int.toNat_natCast]
  rw [this]
  exact List.map_id _

/-- Directed-pair projection of the entry triples. -/
theorem pairs_of_triples (s' t' : List ℕ) (w : List ℚ) (hlen : t'.length = w.length) :
    ((s'.zip (t'.zip w)).map (fun e => (e.1, e.2.1))) = s'.zip t' := by
  induction s' generalizing t' w with
  | nil => simp
  | cons a s ih =>
    cases t' with
    | nil => simp
    | cons b t =>
      cases w with
      | nil => exact absurd hlen (by simp)
      | cons c wrest =>
        simp only [List.zip_cons_cons, List.map_cons]
        rw [ih t wrest (by simpa using hlen)]

theorem cooMat_not_mem (l : List (ℕ × ℕ × ℚ)) (u v : ℕ)
    (h : (u, v) ∉ l.map (fun e => (e.1, e.2.1))) : cooMat l u v = 0 := by
  unfold cooMat
  have : l.filter (fun e => decide (e.1 = u ∧ e.2.1 = v)) = [] := by
    rw [List.filter_eq_nil_iff]
    intro e he
    simp only [decide_eq_true_eq, not_and]
    intro h1 h2
    exact h (List.mem_map.mpr ⟨e, he, by rw [h1, h2]⟩)
  rw [this]
  rfl

theorem cooMat_mem_nodup {l : List (ℕ × ℕ × ℚ)}
    (hnd : (l.map (fun e => (e.1, e.2.1))).Nodup) {u v : ℕ} {c : ℚ}
    (hmem : (u, v, c) ∈ l) : cooMat l u v = c := by
  induction l with
  | nil => cases hmem
  | cons e rest ih =>
    rw [List.map_cons, List.nodup_cons] at hnd
    rcases List.mem_cons.mp hmem with rfl | hmem'
    · unfold cooMat
      rw [List.filter_cons_of_pos (by simp)]
      have hrest : rest.filter (fun e => decide (e.1 = u ∧ e.2.1 = v)) = [] := by
        rw [List.filter_eq_nil_iff]
        intro e' he'
        simp only [decide_eq_true_eq, not_and]
        intro h1 h2
        exact hnd.1 (List.mem_map.mpr ⟨e', he', by rw [h1, h2]⟩)
      rw [hrest]
      simp
    · have hne : ¬(e.1 = u ∧ e.2.1 = v) := by
        rintro ⟨h1, h2⟩
        exact hnd.1 (List.mem_map.mpr ⟨(u, v, c), hmem', by rw [h1, h2]⟩)
      unfold cooMat
      rw [List.filter_cons_of_neg (by simpa using hne)]
      exact ih hnd.2 hmem'

/-- With duplicate-free directed pairs and positive weights, an entry of the
accumulated matrix is nonzero exactly when its pair occurs in the input. -/
theorem cooMat_ne_zero_iff {l : List (ℕ × ℕ × ℚ)}
    (hnd : (l.map (fun e => (e.1, e.2.1))).Nodup)
    (hpos : ∀ e ∈ l, 0 < e.2.2) (u v : ℕ) :
    cooMat l u v ≠ 0 ↔ (u, v) ∈ l.map (fun e => (e.1, e.2.1)) := by
  constructor
  · intro h
    by_contra hmem
    exact h (cooMat_not_mem l u v hmem)
  · intro hmem
    rcases List.mem_map.mp hmem with ⟨e, he, hpr⟩
    obtain ⟨a, b, c⟩ := e
    have ha : a = u := congrArg Prod.fst hpr
    have hb : b = v := congrArg Prod.snd hpr
    subst ha hb
    rw [cooMat_mem_nodup hnd he]
    exact ne_of_gt (hpos (a, b, c) he)

/-- C8 (amended): `discard_weights()` sets every stored weight to exactly
`1.0`, sets the weighted flag to false and recomputes the statistics; and
for an edge list whose directed `(source,target)` pairs (after the `uint32`
cast) are distinct and whose weights are strictly positive, the discarded
graph *equals* the graph rebuilt from the same edge list with all weights
preset to `1`, so `set_scores` agrees for every subset and either strategy.
(Duplicate directed pairs are summed at construction, so rebuilding with
unit weights then differs — see the counterexample.) -/
theorem discard_weights_amended (s t : List ℤ) (w : List ℚ) (g g1 : GraphRec)
    (hg : list_to_gl s t w = Except.ok g)
    (hg1 : list_to_gl s t (w.map (fun _ => (1 : ℚ))) = Except.ok g1)
    (hnd : ((s.map castU32).zip (t.map castU32)).Nodup)
    (hpos : ∀ x ∈ w, 0 < x) :
    (∀ u v, (discard_weights g).A u v = if g.A u v ≠ 0 then 1 else 0) ∧
    (discard_weights g).weighted = false ∧
    (discard_weights g).d
      = (fun i => if i < g.n then rowSum g.n (discard_weights g).A i else 0) ∧
    (discard_weights g).vol
      = ((List.range g.n).map (fun i => rowSum g.n (discard_weights g).A i)).sum ∧
    discard_weights g = g1 ∧
    (∀ (R : List ℕ) (cpp : Bool),
      set_scores (discard_weights g) R cpp = set_scores g1 R cpp) := by
  obtain ⟨hbc, hst, htw, -⟩ := list_to_gl_ok hg
  obtain ⟨hbc1, -, -, -⟩ := list_to_gl_ok hg1
  obtain ⟨hn, hm, hwt, hd, hdn, hvol⟩ := buildCore_fields hbc
  obtain ⟨hn1, hm1, hwt1, hd1, hdn1, hvol1⟩ := buildCore_fields hbc1
  set M : ℕ → ℕ → ℚ := cooMat (natEntries (glEntries s t w)) with hM
  set M1 : ℕ → ℕ → ℚ :=
    cooMat (natEntries (glEntries s t (w.map (fun _ => (1 : ℚ))))) with hM1
  have hA : ∀ u v, g.A u v = max (M u v) (M v u) := built_A_max hbc
  have hA1 : ∀ u v, g1.A u v = max (M1 u v) (M1 v u) := built_A_max hbc1
  have hpairs : (natEntries (glEntries s t w)).map (fun e => (e.1, e.2.1))
      = (s.map castU32).zip (t.map castU32) := by
    rw [natEntries_glEntries]
    exact pairs_of_triples _ _ _ (by simpa using htw)
  have hpairs1 : (natEntries (glEntries s t (w.map (fun _ => (1 : ℚ))))).map
      (fun e => (e.1, e.2.1)) = (s.map castU32).zip (t.map castU32) := by
    rw [natEntries_glEntries]
    exact pairs_of_triples _ _ _ (by simpa using htw)
  have hposE : ∀ e ∈ natEntries (glEntries s t w), 0 < e.2.2 := by
    intro e he
    rw [natEntries_glEntries] at he
    have hw : e.2.2 ∈ w := (List.of_mem_zip (List.of_mem_zip he).2).2
    exact hpos _ hw
  have hunitE : ∀ e ∈ natEntries (glEntries s t (w.map (fun _ => (1 : ℚ)))),
      e.2.2 = 1 := by
    intro e he
    rw [natEntries_glEntries] at he
    have hw : e.2.2 ∈ w.map (fun _ => (1 : ℚ)) :=
      (List.of_mem_zip (List.of_mem_zip he).2).2
    rcases List.mem_map.mp hw with ⟨-, -, hc⟩
    exact hc.symm
  have hMne : ∀ u v, M u v ≠ 0 ↔ (u, v) ∈ (s.map castU32).zip (t.map castU32) := by
    intro u v
    rw [hM, ← hpairs]
    exact cooMat_ne_zero_iff (hpairs ▸ hnd) hposE u v
  have hM1val : ∀ u v, M1 u v
      = if (u, v) ∈ (s.map castU32).zip (t.map castU32) then 1 else 0 := by
    intro u v
    by_cases hmem : (u, v) ∈ (s.map castU32).zip (t.map castU32)
    · rw [if_pos hmem]
      rcases List.mem_map.mp (hpairs1 ▸ hmem) with ⟨e, he, hpr⟩
      have ha : e.1 = u := congrArg Prod.fst hpr
      have hb : e.2.1 = v := congrArg Prod.snd hpr
      have hc : e.2.2 = 1 := hunitE e he
      rw [hM1, ← ha, ← hb, cooMat_mem_nodup (hpairs1 ▸ hnd) he]
      exact hc
    · rw [if_neg hmem, hM1]
      exact cooMat_not_mem _ u v (by rw [hpairs1]; exact hmem)
  have hMnn : ∀ u v, 0 ≤ M u v := by
    intro u v
    by_cases hz : M u v = 0
    · rw [hz]
    · have hmem := (hMne u v).mp hz
      rcases List.mem_map.mp (hpairs ▸ hmem) with ⟨e, he, hpr⟩
      have ha : e.1 = u := congrArg Prod.fst hpr
      have hb : e.2.1 = v := congrArg Prod.snd hpr
      have : M u v = e.2.2 := by
        rw [hM, ← ha, ← hb]
        exact cooMat_mem_nodup (hpairs ▸ hnd) he
      rw [this]
      exact le_of_lt (hposE e he)
  have hAeq : (discard_weights g).A = g1.A := by
    funext u v
    show (if g.A u v ≠ 0 then (1 : ℚ) else 0) = g1.A u v
    rw [hA1, hM1val u v, hM1val v u]
    by_cases huv : (u, v) ∈ (s.map castU32).zip (t.map castU32)
    · have hne : M u v ≠ 0 := (hMne u v).mpr huv
      have hpos' : 0 < M u v := lt_of_le_of_ne (hMnn u v) (Ne.symm hne)
      have hgz : g.A u v ≠ 0 := by
        rw [hA]
        intro hmax
        have := le_max_left (M u v) (M v u)
        rw [hmax] at this
        exact absurd (le_antisymm this (le_of_lt hpos')) hne
      rw [if_pos hgz, if_pos huv]
      by_cases hvu : (v, u) ∈ (s.map castU32).zip (t.map castU32)
      · rw [if_pos hvu, max_self]
      · rw [if_neg hvu]
        exact (max_eq_left zero_le_one).symm
    · have hz : M u v = 0 := by
        by_contra hne
        exact huv ((hMne u v).mp hne)
      rw [if_neg huv]
      by_cases hvu : (v, u) ∈ (s.map castU32).zip (t.map castU32)
      · have hne2 : M v u ≠ 0 := (hMne v u).mpr hvu
        have hpos2 : 0 < M v u := lt_of_le_of_ne (hMnn v u) (Ne.symm hne2)
        have hgz : g.A u v ≠ 0 := by
          rw [hA]
          intro hmax
          have := le_max_right (M u v) (M v u)
          rw [hmax] at this
          exact absurd (le_antisymm this (le_of_lt hpos2)) hne2
        rw [if_pos hgz, if_pos hvu]
        exact (max_eq_right zero_le_one).symm
      · have hz2 : M v u = 0 := by
          by_contra hne
          exact hvu ((hMne v u).mp hne)
        have hgz : ¬ g.A u v ≠ 0 := by
          rw [hA, hz, hz2]
          simp
        rw [if_neg hgz, if_neg hvu, max_self]
  have hng : g1.n = g.n := hn1.trans hn.symm
  have hgeq : discard_weights g = g1 := by
    refine graphRec_ext (show g.n = g1.n from hng.symm) hAeq ?_ ?_ ?_ ?_ ?_
    · show g.m = g1.m
      rw [hm, hm1, hng, ← hAeq]
      unfold nnz
      refine congrArg List.sum ?_
      refine mapCongr ?_
      intro u _
      refine congrArg List.length ?_
      refine List.filter_congr ?_
      intro v _
      have hdg : (discard_weights g).A u v = if g.A u v ≠ 0 then 1 else 0 := rfl
      rw [hdg]
      by_cases hz : g.A u v = 0
      · rw [hz]
        simp
      · simp [hz]
    · show false = g1.weighted
      rw [hwt1]
      symm
      simp only [weightedFlag, List.any_eq_false, List.any_eq_true, not_exists,
        not_and, decide_eq_true_eq, not_not]
      intro u hu v hv hne
      rw [hM1val u v] at hne ⊢
      by_cases hmem : (u, v) ∈ (s.map castU32).zip (t.map castU32)
      · rw [if_pos hmem]
      · rw [if_neg hmem] at hne
        exact absurd rfl hne
    · show (discard_weights g).d = g1.d
      rw [hd1, ← hAeq, hng]
      rfl
    · show (discard_weights g).dn = g1.dn
      rw [hdn1, ← hAeq, hng]
      rfl
    · show (discard_weights g).vol = g1.vol
      rw [hvol1, ← hAeq, hng]
      rfl
  exact ⟨fun u v => rfl, rfl, rfl, rfl, hgeq, fun R cpp => by rw [hgeq]⟩

/-! ### C5: construction-time validation and object state -/

/-- The attribute state of a `GraphLocal` object during `read_graph`
(edgelist branch), each attribute `none` until its assignment runs:
`num_vertices = self._num_vertices` (an int64, possibly negative before
scipy rejects it), `adjacency = (shape, matrix)`, `weighted`, `num_edges`,
and the `compute_statistics` outputs.  (`self.ai`/`self.aj` are cast copies
of the CSR arrays of `adjacency`, assigned last; they carry no further
information and are not tracked separately.) -/
structure ObjState where
  num_vertices : Option ℤ
  adjacency : Option (ℕ × (ℕ → ℕ → ℚ))
  weighted : Option Bool
  num_edges : Option ℕ
  dStat : Option (ℕ → ℚ)
  dnStat : Option (ℕ → ℚ)
  volStat : Option ℚ

/-- A freshly constructed `GraphLocal()` object, before `read_graph` runs. -/
def emptyState : ObjState := ⟨none, none, none, none, none, none, none⟩

/-- `read_graph` (edgelist branch) as a state transformer over the object's
attributes, one assignment per source line, returning the state at the point
an exception is raised (`some err`) or the final state (`none`):
arity check (raises before any assignment); `source.max()` on empty input
(raises before any assignment); `self._num_vertices = ...` (line 191);
`self.adjacency_matrix = sp.csr_matrix(...)` (line 194, scipy may raise);
`self._weighted` (lines 213-217); symmetrisation (lines 218-223,
reassigns `adjacency_matrix`); `self._num_edges` (line 225);
`compute_statistics()` (line 226). -/
def read_graph_state (t : Table) (s : ObjState) : ObjState × Option Err :=
  if t.ncols = 2 ∨ t.ncols = 3 then
    if t.rows = [] then (s, some Err.valueError)
    else
      let nv := tableNumVertices t
      let s1 := { s with num_vertices := some nv }
      match mkCsrChecked nv (tableEntries t) with
      | Except.error e => (s1, some e)
      | Except.ok nM =>
        let s2 := { s1 with adjacency := some nM }
        let s3 := { s2 with weighted := some (weightedFlag nM.1 nM.2) }
        match symmetrizeChecked nM.1 nM.2 with
        | Except.error e => (s3, some e)
        | Except.ok A =>
          let s4 := { s3 with adjacency := some (nM.1, A) }
          let s5 := { s4 with num_edges := some (nnz nM.1 A) }
          let s6 := { s5 with
            dStat := some (fun i => if i < nM.1 then rowSum nM.1 A i else 0),
            dnStat := some (fun i => if i < nM.1 ∧ rowSum nM.1 A i ≠ 0
              then (rowSum nM.1 A i)⁻¹ else 0),
            volStat := some (((List.range nM.1).map (fun i => rowSum nM.1 A i)).sum) }
          (s6, none)
  else (s, some Err.arityError)

/-- C5 (amended): a column count outside `{2,3}` raises before any attribute
is assigned, so no partial state is retained; a negative endpoint id raises
(scipy's index validation), but only after `self._num_vertices` has been
assigned, so partial state IS retained in that case; and two-column input is
read exactly as three-column input with every weight preset to `1.0`. -/
theorem read_graph_validation :
    (∀ t : Table, ¬(t.ncols = 2 ∨ t.ncols = 3) →
      read_graph_state t emptyState = (emptyState, some Err.arityError)) ∧
    (∀ t : Table, (t.ncols = 2 ∨ t.ncols = 3) → t.rows ≠ [] →
      (∃ r ∈ t.rows, r.1 < 0 ∨ r.2.1 < 0) →
      (read_graph_state t emptyState).2 = some Err.valueError ∧
      (read_graph_state t emptyState).1.num_vertices = some (tableNumVertices t) ∧
      (read_graph_state t emptyState).1 ≠ emptyState) ∧
    (∀ rows : List (ℤ × ℤ × ℚ),
      read_graph { ncols := 2, rows := rows }
        = read_graph { ncols := 3, rows := rows.map (fun r => (r.1, r.2.1, (1 : ℚ))) }) := by
  refine ⟨?_, ?_, ?_⟩
  · intro t harity
    unfold read_graph_state
    rw [if_neg harity]
  · intro t harity hne ⟨r, hr, hneg⟩
    have hbad : ∃ e ∈ tableEntries t, e.1 < 0 ∨ e.2.1 < 0 := by
      unfold tableEntries
      by_cases h2 : t.ncols = 2
      · rw [if_pos h2]
        exact ⟨(r.1, r.2.1, 1), List.mem_map.mpr ⟨r, hr, rfl⟩, hneg⟩
      · rw [if_neg h2]
        exact ⟨r, hr, hneg⟩
    have hcsr : mkCsrChecked (tableNumVertices t) (tableEntries t)
        = Except.error Err.valueError := by
      unfold mkCsrChecked
      rw [if_neg]
      rintro ⟨-, hall⟩
      rcases hbad with ⟨e, he, hbadid⟩
      have := of_decide_eq_true (List.all_eq_true.mp hall e he)
      rcases hbadid with h | h
      · exact absurd this.1 (by omega)
      · exact absurd this.2.2.1 (by omega)
    unfold read_graph_state
    rw [if_pos harity, if_neg hne]
    dsimp only
    rw [hcsr]
    refine ⟨rfl, rfl, ?_⟩
    intro hcontr
    have : ({ emptyState with
        num_vertices := some (tableNumVertices t) } : ObjState).num_vertices
        = emptyState.num_vertices := congrArg ObjState.num_vertices hcontr
    simp [emptyState] at this
  · intro rows
    unfold read_graph
    have harr2 : ((2 : ℕ) = 2 ∨ (2 : ℕ) = 3) := Or.inl rfl
    have harr3 : ((3 : ℕ) = 2 ∨ (3 : ℕ) = 3) := Or.inr rfl
    rw [if_pos harr2, if_pos harr3]
    by_cases hempty : rows = []
    · rw [if_pos (by exact hempty), if_pos (by rw [hempty]; rfl)]
    · rw [if_neg (by exact hempty), if_neg (by
        show ¬ rows.map (fun r => (r.1, r.2.1, (1 : ℚ))) = []
        intro h
        exact hempty (List.map_eq_nil_iff.mp h))]
      have hentries : tableEntries { ncols := 2, rows := rows }
          = tableEntries { ncols := 3, rows := rows.map (fun r => (r.1, r.2.1, (1 : ℚ))) } := by
        unfold tableEntries
        rw [if_pos rfl, if_neg (show ¬((3 : ℕ) = 2) by decide)]
      have hnv : tableNumVertices { ncols := 2, rows := rows }
          = tableNumVertices { ncols := 3, rows := rows.map (fun r => (r.1, r.2.1, (1 : ℚ))) } := by
        unfold tableNumVertices
        rw [List.map_map, List.map_map]
        rfl
      rw [hentries, hnv]

/-- The table `[(0,1),(2,-1)]` (two columns): `_num_vertices` is computed
as `3` and assigned, then scipy rejects the negative target id. -/
def badTable : Table := { ncols := 2, rows := [(0, 1, 0), (2, -1, 0)] }

/-- Counterexample to C5 as stated: the negative-id failure does raise, but
partial graph state is retained on the object — `_num_vertices` has already
been set to `3`, while on the fresh object it was unset. -/
theorem read_graph_partial_state_counterexample :
    (read_graph_state badTable emptyState).2 = some Err.valueError ∧
    (read_graph_state badTable emptyState).1.num_vertices = some 3 ∧
    emptyState.num_vertices = none := by
  refine ⟨?_, ?_, rfl⟩
  · with_unfolding_all decide
  · with_unfolding_all decide

/-- The duplicate-pair edge list `(0,1,2),(0,1,3),(1,2,5)`: scipy sums the
two `(0,1)` entries at construction. -/
def dupG : GraphRec :=
  (list_to_gl [0, 0, 1] [1, 1, 2] [2, 3, 5]).toOption.getD defaultGraph

/-- The same edge list rebuilt with all weights preset to `1`. -/
def dupG1 : GraphRec :=
  (list_to_gl [0, 0, 1] [1, 1, 2] [1, 1, 1]).toOption.getD defaultGraph

/-- Counterexample to C8 as stated: with a duplicate directed pair in the
edge list, `discard_weights` then `score({0})` gives `voltrue = 1`, while
the unit-weight rebuild gives `voltrue = 2` (the duplicates were summed), so
the two scoring records differ. -/
theorem discard_weights_rebuild_counterexample :
    (set_scores (discard_weights dupG) [0] false).voltrue = 1 ∧
    (set_scores dupG1 [0] false).voltrue = 2 ∧
    set_scores (discard_weights dupG) [0] false ≠ set_scores dupG1 [0] false := by
  refine ⟨?_, ?_, ?_⟩
  · with_unfolding_all decide
  · with_unfolding_all decide
  · with_unfolding_all decide

/-- Witness for the amended C8 on the path graph (distinct pairs, positive
weights): the discarded graph coincides with the unit rebuild. -/
theorem discard_weights_amended_witness :
    list_to_gl [0, 1, 2] [1, 2, 3] [1, 1, 1] = Except.ok pathG ∧
    list_to_gl [0, 1, 2] [1, 2, 3] ([1, 1, 1].map (fun _ => (1 : ℚ))) = Except.ok pathG ∧
    (([0, 1, 2].map castU32).zip ([1, 2, 3].map castU32)).Nodup ∧
    (∀ x ∈ ([1, 1, 1] : List ℚ), 0 < x) ∧
    discard_weights pathG = pathG ∧
    (∀ (R : List ℕ) (cpp : Bool),
      set_scores (discard_weights pathG) R cpp = set_scores pathG R cpp) := by
  have h1 : list_to_gl [0, 1, 2] [1, 2, 3] [1, 1, 1] = Except.ok pathG := by
    with_unfolding_all rfl
  have h2 : list_to_gl [0, 1, 2] [1, 2, 3] ([1, 1, 1].map (fun _ => (1 : ℚ)))
      = Except.ok pathG := by
    with_unfolding_all rfl
  have h3 : (([0, 1, 2].map castU32).zip ([1, 2, 3].map castU32)).Nodup := by
    with_unfolding_all decide
  have h4 : ∀ x ∈ ([1, 1, 1] : List ℚ), 0 < x := by
    intro x hx
    rcases List.mem_cons.mp hx with rfl | hx'
    · with_unfolding_all decide
    · rcases List.mem_cons.mp hx' with rfl | hx''
      · with_unfolding_all decide
      · rcases List.mem_cons.mp hx'' with rfl | h
        · with_unfolding_all decide
        · cases h
  have := discard_weights_amended [0, 1, 2] [1, 2, 3] [1, 1, 1] pathG pathG h1 h2 h3 h4
  exact ⟨h1, h2, h3, h4, this.2.2.2.2.1, this.2.2.2.2.2⟩

/-! ### C9/C10: the shared-memory export

`to_shared`/`from_shared` are modelled at the buffer level: a `Store` is the
set of allocated `mp.RawArray` buffers, an array attribute of the object is
a handle (index) into the store, and `_copy_to_shared` allocates a fresh
buffer holding a copy of the contents (the returned numpy view `sa` and the
descriptor's `sabuf`/`dtype`/`shape` refer to that same buffer).  Buffer
contents are untyped value lists — `to_shared`/`from_shared` never read the
element values, so `uint32` and `float64` arrays are stored uniformly. -/

/-- The shared-memory arena: every allocated buffer, in allocation order. -/
structure Store where
  bufs : List (List ℚ)
deriving DecidableEq

/-- Allocate a fresh buffer with the given contents, returning the new store
and the buffer's handle. -/
def alloc (σ : Store) (b : List ℚ) : Store × ℕ :=
  (⟨σ.bufs ++ [b]⟩, σ.bufs.length)

/-- Read a buffer's contents through its handle. -/
def readBuf (σ : Store) (h : ℕ) : List ℚ := σ.bufs.getD h []

/-- `_copy_to_shared(a)`: allocate `mp.RawArray` backing memory, copy `a`
into it, and hand back the handle (shared by both the numpy view `sa` and
the descriptor `(sabuf, dtype, shape)`). -/
def _copy_to_shared (σ : Store) (contents : List ℚ) : Store × ℕ :=
  alloc σ contents

/-- A `GraphLocal` object viewed at the array level: scalars plus one handle
per numpy array attribute — `ai`, `aj`, `d`, `dn`, `d_sqrt`, `dn_sqrt`, and
the adjacency matrix's `data`/`indices`/`indptr` buffers. -/
structure SharedObj where
  n : ℕ
  m : ℕ
  weighted : Bool
  vol : ℚ
  ai : ℕ
  aj : ℕ
  d : ℕ
  dn : ℕ
  d_sqrt : ℕ
  dn_sqrt : ℕ
  amDat : ℕ
  amInd : ℕ
  amPtr : ℕ
deriving DecidableEq

/-- The dictionary `to_shared` returns: one buffer descriptor per logical
array plus the scalars `n`, `m`, `vol`, `weighted`. -/
structure SharedDesc where
  ai : ℕ
  aj : ℕ
  d : ℕ
  dn : ℕ
  d_sqrt : ℕ
  dn_sqrt : ℕ
  a : ℕ
  n : ℕ
  m : ℕ
  vol : ℚ
  weighted : Bool
deriving DecidableEq

/-- `to_shared`: copy `ai`, `aj`, `d`, `dn`, `d_sqrt`, `dn_sqrt` and
`adjacency_matrix.data` into fresh shared buffers (in source order),
replacing the object's attributes with the new handles, rebuild the
adjacency matrix over those buffers without copying
(`sp.csr_matrix((data, self.aj, self.ai))`), and return the descriptor
dictionary with the scalars. -/
def to_shared (g : SharedObj) (σ : Store) : SharedObj × SharedDesc × Store :=
  let r1 := _copy_to_shared σ (readBuf σ g.ai)
  let r2 := _copy_to_shared r1.1 (readBuf r1.1 g.aj)
  let r3 := _copy_to_shared r2.1 (readBuf r2.1 g.d)
  let r4 := _copy_to_shared r3.1 (readBuf r3.1 g.dn)
  let r5 := _copy_to_shared r4.1 (readBuf r4.1 g.d_sqrt)
  let r6 := _copy_to_shared r5.1 (readBuf r5.1 g.dn_sqrt)
  let r7 := _copy_to_shared r6.1 (readBuf r6.1 g.amDat)
  let gq : SharedObj :=
    { g with
      ai := r1.2
      aj := r2.2
      d := r3.2
      dn := r4.2
      d_sqrt := r5.2
      dn_sqrt := r6.2
      amDat := r7.2
      amInd := r2.2
      amPtr := r1.2 }
  let desc : SharedDesc :=
    { ai := r1.2
      aj := r2.2
      d := r3.2
      dn := r4.2
      d_sqrt := r5.2
      dn_sqrt := r6.2
      a := r7.2
      n := g.n
      m := g.m
      vol := g.vol
      weighted := g.weighted }
  (gq, desc, r7.1)

/-- `from_shared`: rebuild a graph object from a descriptor — scalars are
copied, and every array attribute is a non-owning view wrapping the
descriptor's buffer (`np.frombuffer`), i.e. the same handle. -/
def from_shared (v : SharedDesc) : SharedObj :=
  { n := v.n, m := v.m, weighted := v.weighted, vol := v.vol,
    ai := v.ai, aj := v.aj, d := v.d, dn := v.dn,
    d_sqrt := v.d_sqrt, dn_sqrt := v.dn_sqrt,
    amDat := v.a, amInd := v.aj, amPtr := v.ai }

/-- The handles `to_shared` reads must be live in the arena. -/
def validHandles (g : SharedObj) (σ : Store) : Prop :=
  g.ai < σ.bufs.length ∧ g.aj < σ.bufs.length ∧ g.d < σ.bufs.length ∧
  g.dn < σ.bufs.length ∧ g.d_sqrt < σ.bufs.length ∧
  g.dn_sqrt < σ.bufs.length ∧ g.amDat < σ.bufs.length

theorem readBuf_alloc_lt {σ : Store} {b : List ℚ} {h : ℕ}
    (hlt : h < σ.bufs.length) : readBuf (alloc σ b).1 h = readBuf σ h := by
  unfold readBuf alloc
  rw [List.getD_eq_getElem?_getD, List.getD_eq_getElem?_getD,
    List.getElem?_append_left hlt]

theorem readBuf_alloc_new (σ : Store) (b : List ℚ) :
    readBuf (alloc σ b).1 σ.bufs.length = b := by
  unfold readBuf alloc
  rw [List.getD_eq_getElem?_getD, List.getElem?_append_right (le_refl _)]
  simp

/-- The arena after `to_shared`: the original buffers followed by the seven
copies, in allocation order. -/
theorem to_shared_bufs (g : SharedObj) (σ : Store) (hv : validHandles g σ) :
    (to_shared g σ).2.2.bufs
      = σ.bufs ++ [readBuf σ g.ai, readBuf σ g.aj, readBuf σ g.d, readBuf σ g.dn,
          readBuf σ g.d_sqrt, readBuf σ g.dn_sqrt, readBuf σ g.amDat] := by
  obtain ⟨h1, h2, h3, h4, h5, h6, h7⟩ := hv
  simp only [to_shared, _copy_to_shared]
  rw [readBuf_alloc_lt (σ := σ) h2]
  rw [readBuf_alloc_lt (show g.d < ((alloc σ (readBuf σ g.ai)).1).bufs.length by
      simp [alloc]; omega),
    readBuf_alloc_lt (σ := σ) h3]
  rw [readBuf_alloc_lt (show g.dn < (alloc (alloc σ (readBuf σ g.ai)).1
        (readBuf σ g.aj)).1.bufs.length by simp [alloc]; omega),
    readBuf_alloc_lt (show g.dn < ((alloc σ (readBuf σ g.ai)).1).bufs.length by
      simp [alloc]; omega),
    readBuf_alloc_lt (σ := σ) h4]
  rw [readBuf_alloc_lt (show g.d_sqrt < (alloc (alloc (alloc σ (readBuf σ g.ai)).1
        (readBuf σ g.aj)).1 (readBuf σ g.d)).1.bufs.length by simp [alloc]; omega),
    readBuf_alloc_lt (show g.d_sqrt < (alloc (alloc σ (readBuf σ g.ai)).1
        (readBuf σ g.aj)).1.bufs.length by simp [alloc]; omega),
    readBuf_alloc_lt (show g.d_sqrt < ((alloc σ (readBuf σ g.ai)).1).bufs.length by
      simp [alloc]; omega),
    readBuf_alloc_lt (σ := σ) h5]
  rw [readBuf_alloc_lt (show g.dn_sqrt < (alloc (alloc (alloc (alloc σ
        (readBuf σ g.ai)).1 (readBuf σ g.aj)).1 (readBuf σ g.d)).1
        (readBuf σ g.dn)).1.bufs.length by simp [alloc]; omega),
    readBuf_alloc_lt (show g.dn_sqrt < (alloc (alloc (alloc σ (readBuf σ g.ai)).1
        (readBuf σ g.aj)).1 (readBuf σ g.d)).1.bufs.length by simp [alloc]; omega),
    readBuf_alloc_lt (show g.dn_sqrt < (alloc (alloc σ (readBuf σ g.ai)).1
        (readBuf σ g.aj)).1.bufs.length by simp [alloc]; omega),
    readBuf_alloc_lt (show g.dn_sqrt < ((alloc σ (readBuf σ g.ai)).1).bufs.length by
      simp [alloc]; omega),
    readBuf_alloc_lt (σ := σ) h6]
  rw [readBuf_alloc_lt (show g.amDat < (alloc (alloc (alloc (alloc (alloc σ
        (readBuf σ g.ai)).1 (readBuf σ g.aj)).1 (readBuf σ g.d)).1
        (readBuf σ g.dn)).1 (readBuf σ g.d_sqrt)).1.bufs.length by
      simp [alloc]; omega),
    readBuf_alloc_lt (show g.amDat < (alloc (alloc (alloc (alloc σ
        (readBuf σ g.ai)).1 (readBuf σ g.aj)).1 (readBuf σ g.d)).1
        (readBuf σ g.dn)).1.bufs.length by simp [alloc]; omega),
    readBuf_alloc_lt (show g.amDat < (alloc (alloc (alloc σ (readBuf σ g.ai)).1
        (readBuf σ g.aj)).1 (readBuf σ g.d)).1.bufs.length by simp [alloc]; omega),
    readBuf_alloc_lt (show g.amDat < (alloc (alloc σ (readBuf σ g.ai)).1
        (readBuf σ g.aj)).1.bufs.length by simp [alloc]; omega),
    readBuf_alloc_lt (show g.amDat < ((alloc σ (readBuf σ g.ai)).1).bufs.length by
      simp [alloc]; omega),
    readBuf_alloc_lt (σ := σ) h7]
  simp [alloc]

/-- The seven handles of the exported object, in allocation order. -/
theorem to_shared_handles (g : SharedObj) (σ : Store) :
    (to_shared g σ).1.ai = σ.bufs.length ∧
    (to_shared g σ).1.aj = σ.bufs.length + 1 ∧
    (to_shared g σ).1.d = σ.bufs.length + 2 ∧
    (to_shared g σ).1.dn = σ.bufs.length + 3 ∧
    (to_shared g σ).1.d_sqrt = σ.bufs.length + 4 ∧
    (to_shared g σ).1.dn_sqrt = σ.bufs.length + 5 ∧
    (to_shared g σ).1.amDat = σ.bufs.length + 6 := by
  refine ⟨rfl, ?_, ?_, ?_, ?_, ?_, ?_⟩ <;> simp [to_shared, _copy_to_shared, alloc]

theorem readBuf_appended (σ : Store) (l : List (List ℚ)) (k : ℕ) (hk : k < l.length) :
    readBuf ⟨σ.bufs ++ l⟩ (σ.bufs.length + k) = l.getD k [] := by
  unfold readBuf
  rw [List.getD_eq_getElem?_getD, List.getElem?_append_right (by omega),
    Nat.add_sub_cancel_left, ← List.getD_eq_getElem?_getD]

/-! The two shared-memory claims. -/

/-- C10: `to_shared` replaces `ai`, `aj`, `d`, `dn`, `d_sqrt`, `dn_sqrt` and
the adjacency weight data with freshly allocated shared-memory-backed
copies, and rebuilds the adjacency matrix over those same buffers
(`indptr`/`indices` alias the new `ai`/`aj`); but every element value is
unchanged and the scalars `n`, `m`, `vol_G`, `_weighted` are untouched, so
every subsequent read on the owning object sees the same graph. -/
theorem to_shared_frame_spec (g : SharedObj) (σ : Store) (hv : validHandles g σ) :
    ((to_shared g σ).1.n = g.n ∧ (to_shared g σ).1.m = g.m ∧
     (to_shared g σ).1.vol = g.vol ∧ (to_shared g σ).1.weighted = g.weighted) ∧
    (σ.bufs.length ≤ (to_shared g σ).1.ai ∧ σ.bufs.length ≤ (to_shared g σ).1.aj ∧
     σ.bufs.length ≤ (to_shared g σ).1.d ∧ σ.bufs.length ≤ (to_shared g σ).1.dn ∧
     σ.bufs.length ≤ (to_shared g σ).1.d_sqrt ∧
     σ.bufs.length ≤ (to_shared g σ).1.dn_sqrt ∧
     σ.bufs.length ≤ (to_shared g σ).1.amDat) ∧
    ((to_shared g σ).1.amPtr = (to_shared g σ).1.ai ∧
     (to_shared g σ).1.amInd = (to_shared g σ).1.aj) ∧
    (readBuf (to_shared g σ).2.2 (to_shared g σ).1.ai = readBuf σ g.ai ∧
     readBuf (to_shared g σ).2.2 (to_shared g σ).1.aj = readBuf σ g.aj ∧
     readBuf (to_shared g σ).2.2 (to_shared g σ).1.d = readBuf σ g.d ∧
     readBuf (to_shared g σ).2.2 (to_shared g σ).1.dn = readBuf σ g.dn ∧
     readBuf (to_shared g σ).2.2 (to_shared g σ).1.d_sqrt = readBuf σ g.d_sqrt ∧
     readBuf (to_shared g σ).2.2 (to_shared g σ).1.dn_sqrt = readBuf σ g.dn_sqrt ∧
     readBuf (to_shared g σ).2.2 (to_shared g σ).1.amDat = readBuf σ g.amDat) := by
  obtain ⟨e1, e2, e3, e4, e5, e6, e7⟩ := to_shared_handles g σ
  have hb := to_shared_bufs g σ hv
  have hread : ∀ k : ℕ, k < 7 → readBuf (to_shared g σ).2.2 (σ.bufs.length + k)
      = [readBuf σ g.ai, readBuf σ g.aj, readBuf σ g.d, readBuf σ g.dn,
         readBuf σ g.d_sqrt, readBuf σ g.dn_sqrt, readBuf σ g.amDat].getD k [] := by
    intro k hk
    have : (to_shared g σ).2.2 = (⟨(to_shared g σ).2.2.bufs⟩ : Store) := rfl
    rw [this, hb]
    exact readBuf_appended σ _ k (by simp; omega)
  refine ⟨⟨rfl, rfl, rfl, rfl⟩, ?_, ⟨rfl, rfl⟩, ?_⟩
  · rw [e1, e2, e3, e4, e5, e6, e7]
    omega
  · rw [e1, e2, e3, e4, e5, e6, e7]
    refine ⟨?_, ?_, ?_, ?_, ?_, ?_, ?_⟩
    · simpa using hread 0 (by omega)
    · exact hread 1 (by omega)
    · exact hread 2 (by omega)
    · exact hread 3 (by omega)
    · exact hread 4 (by omega)
    · exact hread 5 (by omega)
    · exact hread 6 (by omega)

/-- C9: the round trip `from_shared(g.to_shared())` reconstructs a graph
whose scalars equal the original's and whose seven arrays are element-wise
equal to the original's; the reconstructed arrays are non-owning views over
the very buffers the export allocated (the handles coincide with the
descriptor's and with the owning object's post-export handles — no new
buffer is allocated by `from_shared`). -/
theorem shared_roundtrip_spec (g : SharedObj) (σ : Store) (hv : validHandles g σ) :
    (from_shared (to_shared g σ).2.1).n = g.n ∧
    (from_shared (to_shared g σ).2.1).m = g.m ∧
    (from_shared (to_shared g σ).2.1).vol = g.vol ∧
    (from_shared (to_shared g σ).2.1).weighted = g.weighted ∧
    (readBuf (to_shared g σ).2.2 (from_shared (to_shared g σ).2.1).ai
        = readBuf σ g.ai ∧
     readBuf (to_shared g σ).2.2 (from_shared (to_shared g σ).2.1).aj
        = readBuf σ g.aj ∧
     readBuf (to_shared g σ).2.2 (from_shared (to_shared g σ).2.1).d
        = readBuf σ g.d ∧
     readBuf (to_shared g σ).2.2 (from_shared (to_shared g σ).2.1).dn
        = readBuf σ g.dn ∧
     readBuf (to_shared g σ).2.2 (from_shared (to_shared g σ).2.1).d_sqrt
        = readBuf σ g.d_sqrt ∧
     readBuf (to_shared g σ).2.2 (from_shared (to_shared g σ).2.1).dn_sqrt
        = readBuf σ g.dn_sqrt ∧
     readBuf (to_shared g σ).2.2 (from_shared (to_shared g σ).2.1).amDat
        = readBuf σ g.amDat) ∧
    ((from_shared (to_shared g σ).2.1).ai = (to_shared g σ).2.1.ai ∧
     (from_shared (to_shared g σ).2.1).aj = (to_shared g σ).2.1.aj ∧
     (from_shared (to_shared g σ).2.1).d = (to_shared g σ).2.1.d ∧
     (from_shared (to_shared g σ).2.1).dn = (to_shared g σ).2.1.dn ∧
     (from_shared (to_shared g σ).2.1).d_sqrt = (to_shared g σ).2.1.d_sqrt ∧
     (from_shared (to_shared g σ).2.1).dn_sqrt = (to_shared g σ).2.1.dn_sqrt ∧
     (from_shared (to_shared g σ).2.1).amDat = (to_shared g σ).2.1.a) ∧
    ((from_shared (to_shared g σ).2.1).ai = (to_shared g σ).1.ai ∧
     (from_shared (to_shared g σ).2.1).aj = (to_shared g σ).1.aj ∧
     (from_shared (to_shared g σ).2.1).amDat = (to_shared g σ).1.amDat) := by
  have hf := to_shared_frame_spec g σ hv
  refine ⟨rfl, rfl, rfl, rfl, ?_, ⟨rfl, rfl, rfl, rfl, rfl, rfl, rfl⟩,
    ⟨rfl, rfl, rfl⟩⟩
  exact hf.2.2.2

/-- A concrete arena with seven buffers and an object pointing into it. -/
def demoStore : Store :=
  ⟨[[0, 2, 3], [1, 0, 2], [1, 2, 1], [1, 1/2, 1], [1, 1, 1], [1, 1, 1], [1, 1, 1]]⟩

def demoObj : SharedObj :=
  { n := 3, m := 3, weighted := true, vol := 4,
    ai := 0, aj := 1, d := 2, dn := 3, d_sqrt := 4, dn_sqrt := 5,
    amDat := 6, amInd := 1, amPtr := 0 }

/-- Witness for C10 at the concrete arena. -/
theorem to_shared_frame_spec_witness :
    validHandles demoObj demoStore ∧
    (((to_shared demoObj demoStore).1.n = demoObj.n ∧
      (to_shared demoObj demoStore).1.m = demoObj.m ∧
      (to_shared demoObj demoStore).1.vol = demoObj.vol ∧
      (to_shared demoObj demoStore).1.weighted = demoObj.weighted) ∧
     (demoStore.bufs.length ≤ (to_shared demoObj demoStore).1.ai ∧
      demoStore.bufs.length ≤ (to_shared demoObj demoStore).1.aj ∧
      demoStore.bufs.length ≤ (to_shared demoObj demoStore).1.d ∧
      demoStore.bufs.length ≤ (to_shared demoObj demoStore).1.dn ∧
      demoStore.bufs.length ≤ (to_shared demoObj demoStore).1.d_sqrt ∧
      demoStore.bufs.length ≤ (to_shared demoObj demoStore).1.dn_sqrt ∧
      demoStore.bufs.length ≤ (to_shared demoObj demoStore).1.amDat) ∧
     ((to_shared demoObj demoStore).1.amPtr = (to_shared demoObj demoStore).1.ai ∧
      (to_shared demoObj demoStore).1.amInd = (to_shared demoObj demoStore).1.aj) ∧
     (readBuf (to_shared demoObj demoStore).2.2 (to_shared demoObj demoStore).1.ai
        = readBuf demoStore demoObj.ai ∧
      readBuf (to_shared demoObj demoStore).2.2 (to_shared demoObj demoStore).1.aj
        = readBuf demoStore demoObj.aj ∧
      readBuf (to_shared demoObj demoStore).2.2 (to_shared demoObj demoStore).1.d
        = readBuf demoStore demoObj.d ∧
      readBuf (to_shared demoObj demoStore).2.2 (to_shared demoObj demoStore).1.dn
        = readBuf demoStore demoObj.dn ∧
      readBuf (to_shared demoObj demoStore).2.2 (to_shared demoObj demoStore).1.d_sqrt
        = readBuf demoStore demoObj.d_sqrt ∧
      readBuf (to_shared demoObj demoStore).2.2 (to_shared demoObj demoStore).1.dn_sqrt
        = readBuf demoStore demoObj.dn_sqrt ∧
      readBuf (to_shared demoObj demoStore).2.2 (to_shared demoObj demoStore).1.amDat
        = readBuf demoStore demoObj.amDat)) :=
  ⟨by unfold validHandles; decide,
   to_shared_frame_spec demoObj demoStore (by unfold validHandles; decide)⟩

/-- Witness for C9 at the concrete arena: the round trip preserves scalars
and array contents, and shares the exported buffers. -/
theorem shared_roundtrip_spec_witness :
    validHandles demoObj demoStore ∧
    (from_shared (to_shared demoObj demoStore).2.1).n = demoObj.n ∧
    (from_shared (to_shared demoObj demoStore).2.1).vol = demoObj.vol ∧
    readBuf (to_shared demoObj demoStore).2.2
        (from_shared (to_shared demoObj demoStore).2.1).d
      = readBuf demoStore demoObj.d ∧
    (from_shared (to_shared demoObj demoStore).2.1).ai
      = (to_shared demoObj demoStore).2.1.ai :=
  ⟨by unfold validHandles; decide,
   (shared_roundtrip_spec demoObj demoStore (by unfold validHandles; decide)).1,
   (shared_roundtrip_spec demoObj demoStore (by unfold validHandles; decide)).2.2.1,
   (shared_roundtrip_spec demoObj demoStore (by unfold validHandles; decide)).2.2.2.2.1.2.2.1,
   (shared_roundtrip_spec demoObj demoStore (by unfold validHandles; decide)).2.2.2.2.2.1.1⟩

/-! ### C6: `neighbors` and numpy indexing -/

/-- The CSR rows in storage order (`adjacency_matrix` has sorted indices
after scipy's COO→CSR conversion). -/
def csrRowLists (g : GraphRec) : List (List ℕ) := (List.range g.n).map (rowList g)

/-- `self.aj`: the column-index array, all rows concatenated. -/
def csrAj (g : GraphRec) : List ℕ := (csrRowLists g).flatten

/-- `self.ai`: the index-pointer array of length `n+1`, `ai[i]` = number of
stored entries in rows `0..i-1`. -/
def csrAi (g : GraphRec) : List ℕ :=
  (List.range (g.n + 1)).map (fun i => (((csrRowLists g).take i).map List.length).sum)

/-- numpy integer array indexing: `0 ≤ x < len` reads directly, negative
`x ≥ -len` wraps to `len + x`, anything else raises `IndexError` (`none`). -/
def npIndex {α : Type} (l : List α) (x : ℤ) : Option α :=
  if 0 ≤ x ∧ x < (l.length : ℤ) then l.get? x.toNat
  else if -(l.length : ℤ) ≤ x ∧ x < 0 then l.get? (x + (l.length : ℤ)).toNat
  else none

/-- `neighbors(vertex)`: `self.aj[self.ai[vertex]:self.ai[vertex+1]].tolist()`
— two numpy array indexings followed by a (clamping, never-failing) slice. -/
def neighbors (g : GraphRec) (vertex : ℤ) : Option (List ℕ) :=
  match npIndex (csrAi g) vertex, npIndex (csrAi g) (vertex + 1) with
  | some a, some b => some (((csrAj g).drop a).take (b - a))
  | _, _ => none

theorem flatten_drop_lead {α : Type} (ls : List (List α)) (k : ℕ) :
    (ls.flatten).drop (((ls.take k).map List.length).sum) = (ls.drop k).flatten := by
  induction ls generalizing k with
  | nil => simp
  | cons l rest ih =>
    cases k with
    | zero => simp
    | succ k' =>
      rw [List.take_succ_cons, List.map_cons, List.sum_cons, List.flatten_cons,
        List.drop_succ_cons, ← List.drop_drop, List.drop_left, ih]

theorem csrAi_get (g : GraphRec) (i : ℕ) (h : i < g.n + 1) :
    (csrAi g).get? i = some (((csrRowLists g).take i).map List.length).sum := by
  unfold csrAi
  rw [List.get?_map, List.get?_range h, Option.map_some']

theorem csrAi_length (g : GraphRec) : (csrAi g).length = g.n + 1 := by
  unfold csrAi
  rw [List.length_map, List.length_range]

theorem csrRowLists_length (g : GraphRec) : (csrRowLists g).length = g.n := by
  unfold csrRowLists
  rw [List.length_map, List.length_range]

theorem csrAj_length (g : GraphRec) :
    (csrAj g).length = (((csrRowLists g).take g.n).map List.length).sum := by
  unfold csrAj
  rw [List.length_flatten, List.take_of_length_le (le_of_eq (csrRowLists_length g))]

/-- The CSR slice `aj[ai[i]:ai[i+1]]` is exactly row `i`. -/
theorem csr_slice_row (g : GraphRec) (i : ℕ) (hi : i < g.n) :
    ((csrAj g).drop (((csrRowLists g).take i).map List.length).sum).take
        ((((csrRowLists g).take (i + 1)).map List.length).sum
          - (((csrRowLists g).take i).map List.length).sum)
      = rowList g i := by
  have hlen : i < (csrRowLists g).length := by rw [csrRowLists_length]; exact hi
  have hget : (csrRowLists g)[i] = rowList g i := by
    unfold csrRowLists
    rw [List.getElem_map, List.getElem_range]
  have hsucc : (((csrRowLists g).take (i + 1)).map List.length).sum
      = (((csrRowLists g).take i).map List.length).sum + (rowList g i).length := by
    rw [List.take_succ, List.map_append, List.sum_append]
    have : (csrRowLists g)[i]? = some (rowList g i) := by
      rw [List.getElem?_eq_getElem hlen, hget]
    rw [this]
    simp
  rw [hsucc, Nat.add_sub_cancel_left]
  unfold csrAj
  rw [flatten_drop_lead, List.drop_eq_getElem_cons hlen, hget, List.flatten_cons,
    List.take_left']
  rfl

/-- C6 (amended): `neighbors(v)` returns the storage-order row for
`0 ≤ v < n`; it raises `IndexError` for `v ≥ n` and for `v < -(n+1)`; but a
negative `v` with `-(n+1) ≤ v ≤ -1` is wrapped by numpy rather than
rejected: `-(n+1) ≤ v ≤ -2` silently returns the neighbours of vertex
`n+1+v`, and `v = -1` returns the empty list. -/
theorem neighbors_spec :
    (∀ (g : GraphRec) (v : ℤ), 0 ≤ v → v < (g.n : ℤ) →
      neighbors g v = some (rowList g v.toNat)) ∧
    (∀ (g : GraphRec) (v : ℤ), (g.n : ℤ) ≤ v → neighbors g v = none) ∧
    (∀ (g : GraphRec) (v : ℤ), v < -((g.n : ℤ) + 1) → neighbors g v = none) ∧
    (∀ (g : GraphRec) (v : ℤ), -((g.n : ℤ) + 1) ≤ v → v ≤ -2 →
      neighbors g v = some (rowList g (v + (g.n : ℤ) + 1).toNat)) ∧
    (∀ g : GraphRec, neighbors g (-1) = some []) := by
  have hai : ∀ (g : GraphRec) (i : ℕ), i < g.n + 1 →
      ∀ x : ℤ, x = (i : ℤ) ∨ x = (i : ℤ) - ((g.n : ℤ) + 1) →
      npIndex (csrAi g) x = some (((csrRowLists g).take i).map List.length).sum := by
    intro g i hi x hx
    unfold npIndex
    rw [csrAi_length]
    rcases hx with rfl | rfl
    · rw [if_pos (by constructor <;> omega)]
      rw [show ((i : ℤ)).toNat = i by omega]
      exact csrAi_get g i hi
    · by_cases hzero : (i : ℤ) - ((g.n : ℤ) + 1) ≥ 0
      · omega
      · rw [if_neg (by omega), if_pos (by constructor <;> omega)]
        rw [show ((i : ℤ) - ((g.n : ℤ) + 1) + ((g.n : ℕ) + 1 : ℕ)).toNat = i by
          push_cast
          omega]
        exact csrAi_get g i hi
  have hnone : ∀ (g : GraphRec) (x : ℤ), ((g.n : ℤ) + 1) ≤ x ∨ x < -((g.n : ℤ) + 1) →
      npIndex (csrAi g) x = none := by
    intro g x hx
    unfold npIndex
    rw [csrAi_length]
    rw [if_neg (by push_cast; omega), if_neg (by push_cast; omega)]
  refine ⟨?_, ?_, ?_, ?_, ?_⟩
  · intro g v h0 hlt
    unfold neighbors
    rw [hai g v.toNat (by omega) v (Or.inl (by omega)),
      hai g (v.toNat + 1) (by omega) (v + 1) (Or.inl (by push_cast; omega))]
    exact congrArg some (csr_slice_row g v.toNat (by omega))
  · intro g v hge
    unfold neighbors
    rw [hnone g (v + 1) (Or.inl (by omega))]
    cases npIndex (csrAi g) v
    · rfl
    · rfl
  · intro g v hlt
    unfold neighbors
    rw [hnone g v (Or.inr hlt)]
  · intro g v hle hub
    unfold neighbors
    have hk : (v + (g.n : ℤ) + 1).toNat < g.n := by omega
    have hx1 : v = (((v + (g.n : ℤ) + 1).toNat : ℕ) : ℤ) - ((g.n : ℤ) + 1) := by
      push_cast
      omega
    have hx2 : v + 1 = ((((v + (g.n : ℤ) + 1).toNat : ℕ) + 1 : ℕ) : ℤ) - ((g.n : ℤ) + 1) := by
      push_cast
      omega
    rw [hai g (v + (g.n : ℤ) + 1).toNat (by omega) v (Or.inr hx1),
      hai g ((v + (g.n : ℤ) + 1).toNat + 1) (by omega) (v + 1) (Or.inr hx2)]
    exact congrArg some (csr_slice_row g (v + (g.n : ℤ) + 1).toNat hk)
  · intro g
    unfold neighbors
    rw [hai g g.n (by omega) (-1) (Or.inr (by push_cast; omega)),
      hai g 0 (by omega) (-1 + 1) (Or.inl (by omega))]
    dsimp only
    rw [show (((csrRowLists g).take 0).map List.length).sum = 0 from by simp,
      Nat.zero_sub, List.take_zero]

/-- Counterexample to C6 as stated: on the path graph, `neighbors(-2)` does
not raise — numpy wraps the negative index and the call returns the
neighbour list of vertex `3`, namely `[2]`. -/
theorem neighbors_negative_counterexample :
    neighbors pathG (-2) = some [2] ∧ neighbors pathG (-2) ≠ none := by
  constructor
  · with_unfolding_all decide
  · with_unfolding_all decide

/-- Witness for C7 on the path graph with values `[5, 1, 1, 7]`:
non-strict minima are `{1, 2}` (the plateau qualifies), and the value list
matches positionally. -/
theorem local_extrema_spec_witness :
    (local_extrema pathG (fun i => if i = 0 then 5 else if i = 3 then 7 else 1)
        false false).1 = [1, 2] ∧
    (local_extrema pathG (fun i => if i = 0 then 5 else if i = 3 then 7 else 1)
        false false).2 = [1, 1] ∧
    ((1 : ℕ) ∈ (local_extrema pathG
        (fun i => if i = 0 then 5 else if i = 3 then 7 else 1) false false).1 ↔
      ((1 : ℕ) < pathG.n ∧ ∀ j, j < pathG.n → pathG.A 1 j ≠ 0 → j ≠ 1 →
        (if false
         then (if false then (-1 : ℚ) else 1) *
            (fun i => if i = 0 then (5 : ℚ) else if i = 3 then 7 else 1) 1
            < (if false then (-1 : ℚ) else 1) *
            (fun i => if i = 0 then (5 : ℚ) else if i = 3 then 7 else 1) j
         else (if false then (-1 : ℚ) else 1) *
            (fun i => if i = 0 then (5 : ℚ) else if i = 3 then 7 else 1) 1
            ≤ (if false then (-1 : ℚ) else 1) *
            (fun i => if i = 0 then (5 : ℚ) else if i = 3 then 7 else 1) j))) :=
  ⟨by with_unfolding_all decide, by with_unfolding_all decide,
    (local_extrema_spec pathG
      (fun i => if i = 0 then 5 else if i = 3 then 7 else 1) false false).1 1⟩

/-! ### C4: connected components and `largest_component`

`connected_components` delegates to `scipy.sparse.csgraph.connected_components`
with `directed=False`: two vertices are adjacent when either directed entry is
stored, and the label array assigns each vertex its component's id in
first-discovery order (scanning vertices `0, 1, …`), so component ids are
ordered by each component's minimal vertex.  The library call is external to
this repository, so labels are modelled canonically: `labelOf g v` is the
minimal vertex of `v`'s component, computed by iterated min-label propagation
(`g.n * g.n` rounds suffice, proved below); scipy's label of `v` is then the
rank of `labelOf g v` among the component minima, an order-isomorphic
renaming under which `Counter` insertion order, `most_common` tie-breaking
and the `what_key == components[i]` comparisons are preserved verbatim. -/

/-- The `directed=False` adjacency: `u` and `v` are connected when either
directed entry is stored. -/
def relAdj (g : GraphRec) (u v : ℕ) : Prop :=
  u < g.n ∧ v < g.n ∧ (g.A u v ≠ 0 ∨ g.A v u ≠ 0)

instance instDecidableRelAdj (g : GraphRec) (u v : ℕ) : Decidable (relAdj g u v) := by
  unfold relAdj
  infer_instance

/-- Reachability in the undirected graph: the equivalence whose classes are
the connected components. -/
def reaches (g : GraphRec) : ℕ → ℕ → Prop := Relation.ReflTransGen (relAdj g)

/-- The undirected neighbour scan of one propagation round. -/
def undirNbrs (g : GraphRec) (v : ℕ) : List ℕ :=
  (List.range g.n).filter (fun u => decide (relAdj g v u))

/-- One synchronous min-label propagation round: every vertex takes the
minimum of its own label and its neighbours' labels. -/
def labStep (g : GraphRec) (lab : ℕ → ℕ) : ℕ → ℕ := fun v =>
  if v < g.n then (undirNbrs g v).foldl (fun acc u => min acc (lab u)) (lab v)
  else lab v

/-- `k` propagation rounds from the initial labelling `v ↦ v`. -/
def labIter (g : GraphRec) : ℕ → ℕ → ℕ
  | 0 => fun v => v
  | k + 1 => labStep g (labIter g k)

/-- The canonical component label of `v`: the minimal vertex of `v`'s
component (`g.n * g.n` rounds are enough for the propagation to stabilise). -/
def labelOf (g : GraphRec) (v : ℕ) : ℕ := labIter g (g.n * g.n) v

theorem relAdj_symm {g : GraphRec} {u v : ℕ} (h : relAdj g u v) : relAdj g v u :=
  ⟨h.2.1, h.1, h.2.2.symm⟩

theorem foldlMin_le_init (lab : ℕ → ℕ) (l : List ℕ) (init : ℕ) :
    l.foldl (fun acc u => min acc (lab u)) init ≤ init := by
  induction l generalizing init with
  | nil => exact le_refl _
  | cons a t ih =>
    exact le_trans (ih (min init (lab a))) (min_le_left _ _)

theorem foldlMin_le_mem (lab : ℕ → ℕ) (l : List ℕ) :
    ∀ init : ℕ, ∀ u ∈ l, l.foldl (fun acc u => min acc (lab u)) init ≤ lab u := by
  induction l with
  | nil =>
    intro init u hu
    cases hu
  | cons a t ih =>
    intro init u hu
    rcases List.mem_cons.mp hu with rfl | hu'
    · exact le_trans (foldlMin_le_init lab t (min init (lab u))) (min_le_right _ _)
    · exact ih (min init (lab a)) u hu'

theorem foldlMin_cases (lab : ℕ → ℕ) (l : List ℕ) (init : ℕ) :
    l.foldl (fun acc u => min acc (lab u)) init = init ∨
    ∃ u ∈ l, l.foldl (fun acc u => min acc (lab u)) init = lab u := by
  induction l generalizing init with
  | nil => exact Or.inl rfl
  | cons a t ih =>
    rcases ih (min init (lab a)) with h | ⟨u, hu, h⟩
    · by_cases hle : init ≤ lab a
      · left
        rw [List.foldl_cons, h, min_eq_left hle]
      · right
        refine ⟨a, List.mem_cons_self a t, ?_⟩
        rw [List.foldl_cons, h, min_eq_right (le_of_not_le hle)]
    · refine Or.inr ⟨u, List.mem_cons_of_mem a hu, ?_⟩
      rw [List.foldl_cons]
      exact h

theorem labStep_le (g : GraphRec) (lab : ℕ → ℕ) (v : ℕ) :
    labStep g lab v ≤ lab v := by
  unfold labStep
  by_cases hv : v < g.n
  · rw [if_pos hv]
    exact foldlMin_le_init lab (undirNbrs g v) (lab v)
  · rw [if_neg hv]

theorem labIter_le_self (g : GraphRec) (k v : ℕ) : labIter g k v ≤ v := by
  induction k with
  | zero => exact le_refl v
  | succ j ih => exact le_trans (labStep_le g (labIter g j) v) ih

theorem labIter_off (g : GraphRec) (k v : ℕ) (hv : g.n ≤ v) : labIter g k v = v := by
  induction k with
  | zero => rfl
  | succ j ih =>
    show labStep g (labIter g j) v = v
    unfold labStep
    rw [if_neg (by omega), ih]

theorem mem_undirNbrs {g : GraphRec} {v u : ℕ} :
    u ∈ undirNbrs g v ↔ relAdj g v u := by
  unfold undirNbrs
  rw [List.mem_filter, List.mem_range, decide_eq_true_eq]
  constructor
  · exact fun h => h.2
  · exact fun h => ⟨h.2.1, h⟩

theorem labStep_reach (g : GraphRec) (lab : ℕ → ℕ)
    (hlab : ∀ u, reaches g u (lab u)) (v : ℕ) : reaches g v (labStep g lab v) := by
  unfold labStep
  by_cases hv : v < g.n
  · rw [if_pos hv]
    rcases foldlMin_cases lab (undirNbrs g v) (lab v) with h | ⟨u, hu, h⟩
    · rw [h]
      exact hlab v
    · rw [h]
      exact Relation.ReflTransGen.trans
        (Relation.ReflTransGen.single (mem_undirNbrs.mp hu)) (hlab u)
  · rw [if_neg hv]
    exact hlab v

theorem labIter_reach (g : GraphRec) (k v : ℕ) : reaches g v (labIter g k v) := by
  induction k generalizing v with
  | zero => exact Relation.ReflTransGen.refl
  | succ j ih => exact labStep_reach g (labIter g j) ih v

theorem labelOf_reach (g : GraphRec) (v : ℕ) : reaches g v (labelOf g v) :=
  labIter_reach g (g.n * g.n) v

/-- Total label mass of one round, the variant of the stabilisation proof. -/
def labSum (g : GraphRec) (lab : ℕ → ℕ) : ℕ := ((List.range g.n).map lab).sum

/-- Round `k` changes nothing: the propagation has stabilised. -/
def Stable (g : GraphRec) (k : ℕ) : Prop :=
  ∀ v, labIter g (k + 1) v = labIter g k v

theorem natMapSum_le {l : List ℕ} {f f' : ℕ → ℕ} (hle : ∀ v ∈ l, f v ≤ f' v) :
    (l.map f).sum ≤ (l.map f').sum := by
  induction l with
  | nil => exact le_refl _
  | cons a t ih =>
    simp only [List.map_cons, List.sum_cons]
    exact Nat.add_le_add (hle a (List.mem_cons_self a t))
      (ih (fun v hv => hle v (List.mem_cons_of_mem a hv)))

theorem natMapSum_lt {l : List ℕ} {f f' : ℕ → ℕ} (hle : ∀ v ∈ l, f v ≤ f' v)
    {v : ℕ} (hv : v ∈ l) (hlt : f v < f' v) :
    (l.map f).sum < (l.map f').sum := by
  induction l with
  | nil => cases hv
  | cons a t ih =>
    simp only [List.map_cons, List.sum_cons]
    rcases List.mem_cons.mp hv with rfl | hv'
    · exact Nat.add_lt_add_of_lt_of_le hlt
        (natMapSum_le (fun u hu => hle u (List.mem_cons_of_mem v hu)))
    · exact Nat.add_lt_add_of_le_of_lt (hle a (List.mem_cons_self a t))
        (ih (fun u hu => hle u (List.mem_cons_of_mem a hu)) hv')

theorem natMapSum_const_le {l : List ℕ} {f : ℕ → ℕ} {c : ℕ}
    (h : ∀ v ∈ l, f v ≤ c) : (l.map f).sum ≤ l.length * c := by
  induction l with
  | nil => simp
  | cons a t ih =>
    simp only [List.map_cons, List.sum_cons, List.length_cons]
    calc f a + (t.map f).sum ≤ c + t.length * c :=
          Nat.add_le_add (h a (List.mem_cons_self a t))
            (ih (fun v hv => h v (List.mem_cons_of_mem a hv)))
      _ = (t.length + 1) * c := by ring

theorem stable_mono {g : GraphRec} {k j : ℕ} (h : Stable g k) (hkj : k ≤ j) :
    Stable g j := by
  induction j with
  | zero =>
    have : k = 0 := Nat.le_zero.mp hkj
    rw [← this]
    exact h
  | succ i ih =>
    rcases Nat.lt_or_ge k (i + 1) with hlt | hge
    · have hsi : Stable g i := ih (by omega)
      have hfi : labIter g (i + 1) = labIter g i := funext hsi
      intro v
      show labStep g (labIter g (i + 1)) v = labIter g (i + 1) v
      rw [hfi]
      exact hsi v
    · have : k = i + 1 := by omega
      rw [← this]
      exact h

theorem labSum_decrease (g : GraphRec) :
    ∀ k, (∀ j, j < k → ¬ Stable g j) →
      labSum g (labIter g k) + k ≤ labSum g (labIter g 0) := by
  intro k
  induction k with
  | zero => exact fun _ => le_refl _
  | succ i ih =>
    intro hns
    have hi := ih (fun j hj => hns j (by omega))
    have hnsi := hns i (by omega)
    have hv : ∃ v, labIter g (i + 1) v ≠ labIter g i v := by
      by_contra hall
      push_neg at hall
      exact hnsi hall
    rcases hv with ⟨v, hvne⟩
    have hvn : v < g.n := by
      by_contra hge
      rw [labIter_off g (i + 1) v (by omega), labIter_off g i v (by omega)] at hvne
      exact hvne rfl
    have hlt : labSum g (labIter g (i + 1)) < labSum g (labIter g i) := by
      unfold labSum
      exact natMapSum_lt (fun u _ => labStep_le g (labIter g i) u)
        (List.mem_range.mpr hvn)
        (lt_of_le_of_ne (labStep_le g (labIter g i) v) hvne)
    omega

theorem labelOf_stable (g : GraphRec) : Stable g (g.n * g.n) := by
  by_contra hns
  by_cases hn0 : g.n = 0
  · apply hns
    intro v
    show labStep g (labIter g (g.n * g.n)) v = labIter g (g.n * g.n) v
    unfold labStep
    rw [if_neg (by omega)]
  · have hall : ∀ j, j < g.n * g.n → ¬ Stable g j := by
      intro j hj hs
      exact hns (stable_mono hs (by omega))
    have hdec := labSum_decrease g (g.n * g.n) hall
    have hS0 : labSum g (labIter g 0) ≤ g.n * (g.n - 1) := by
      unfold labSum
      have : (List.range g.n).length * (g.n - 1) = g.n * (g.n - 1) := by
        rw [List.length_range]
      rw [← this]
      exact natMapSum_const_le (fun v hv => by
        have hv2 := List.mem_range.mp hv
        have h0 : labIter g 0 v = v := rfl
        omega)
    have hlt : g.n * (g.n - 1) < g.n * g.n :=
      mul_lt_mul_of_pos_left (show g.n - 1 < g.n by omega) (show 0 < g.n by omega)
    omega

theorem labelOf_fix (g : GraphRec) (v : ℕ) :
    labStep g (labelOf g) v = labelOf g v :=
  labelOf_stable g v

theorem labelOf_le_self (g : GraphRec) (v : ℕ) : labelOf g v ≤ v :=
  labIter_le_self g (g.n * g.n) v

theorem labelOf_adj_le {g : GraphRec} {v u : ℕ} (h : relAdj g v u) :
    labelOf g v ≤ labelOf g u := by
  have hfix := labelOf_fix g v
  unfold labStep at hfix
  rw [if_pos h.1] at hfix
  rw [← hfix]
  exact foldlMin_le_mem (labelOf g) (undirNbrs g v) (labelOf g v) u
    (mem_undirNbrs.mpr h)

theorem labelOf_adj_eq {g : GraphRec} {v u : ℕ} (h : relAdj g v u) :
    labelOf g v = labelOf g u :=
  le_antisymm (labelOf_adj_le h) (labelOf_adj_le (relAdj_symm h))

theorem labelOf_reaches_eq {g : GraphRec} {u v : ℕ} (h : reaches g u v) :
    labelOf g u = labelOf g v := by
  induction h with
  | refl => rfl
  | tail _ hadj ih => exact ih.trans (labelOf_adj_eq hadj)

theorem reaches_symm {g : GraphRec} {u v : ℕ} (h : reaches g u v) :
    reaches g v u := by
  induction h with
  | refl => exact Relation.ReflTransGen.refl
  | tail _ hadj ih =>
    exact Relation.ReflTransGen.trans
      (Relation.ReflTransGen.single (relAdj_symm hadj)) ih

/-- Two vertices carry the same canonical label iff they lie in the same
connected component. -/
theorem labelOf_eq_iff_reaches (g : GraphRec) (u v : ℕ) :
    labelOf g u = labelOf g v ↔ reaches g u v := by
  constructor
  · intro h
    refine Relation.ReflTransGen.trans (labelOf_reach g u) ?_
    rw [h]
    exact reaches_symm (labelOf_reach g v)
  · exact labelOf_reaches_eq

theorem labelOf_idem (g : GraphRec) (v : ℕ) :
    labelOf g (labelOf g v) = labelOf g v :=
  (labelOf_reaches_eq (labelOf_reach g v)).symm

theorem labelOf_lt (g : GraphRec) {v : ℕ} (hv : v < g.n) : labelOf g v < g.n :=
  lt_of_le_of_lt (labelOf_le_self g v) hv

/-- The component minima in increasing order.  scipy's component ids are
assigned in first-discovery order scanning `0, 1, …`, so its id of the
component with minimum `ℓ` is the rank of `ℓ` in this list; in particular
`Counter(components)` inserts its keys in this order. -/
def candidateLabels (g : GraphRec) : List ℕ :=
  (List.range g.n).filter (fun v => decide (labelOf g v = v))

/-- `number_of_components`, `csgraph.connected_components`'s first return. -/
def number_of_components (g : GraphRec) : ℕ := (candidateLabels g).length

/-- The population of the component with canonical label `x`
(`Counter(components)[x]`). -/
def labelCount (g : GraphRec) (x : ℕ) : ℕ :=
  ((List.range g.n).filter (fun v => decide (labelOf g v = x))).length

/-- `counter.most_common(1)[0][0]`: the first key of maximal count;
`Counter` breaks ties by insertion order, i.e. by increasing component
minimum. -/
def mostCommonLabel (g : GraphRec) : ℕ :=
  match candidateLabels g with
  | [] => 0
  | x :: ls =>
    ls.foldl (fun best y => if labelCount g best < labelCount g y then y else best) x

/-- The `maxccnodes` list: the vertices of the most populous component, in
increasing order (the `for i in range(self._num_vertices)` append loop). -/
def maxccnodes (g : GraphRec) : List ℕ :=
  (List.range g.n).filter (fun i => decide (mostCommonLabel g = labelOf g i))

/-- The doubly-sliced adjacency
`self.adjacency_matrix[maxccnodes,:].tocsc()[:,maxccnodes].tocsr()`:
row/column `i` of the copy is row/column `maxccnodes[i]` of the original. -/
def inducedA (g : GraphRec) : ℕ → ℕ → ℚ := fun i j =>
  if i < (maxccnodes g).length ∧ j < (maxccnodes g).length then
    g.A ((maxccnodes g).getD i 0) ((maxccnodes g).getD j 0)
  else 0

/-- The fresh `GraphLocal()` object the disconnected branch builds: sliced
adjacency, `_num_vertices = len(maxccnodes)`, recomputed statistics, copied
`_weighted` flag, `_num_edges = nnz`. -/
def g_copy (g : GraphRec) : GraphRec :=
  compute_statistics
    { n := (maxccnodes g).length, A := inducedA g,
      m := nnz (maxccnodes g).length (inducedA g), weighted := g.weighted,
      d := fun _ => 0, dn := fun _ => 0, vol := 0 }

/-- What `largest_component` hands back: the object itself (`return self`,
an alias) or a freshly constructed object. -/
inductive LCResult where
  | selfAlias : LCResult
  | fresh : GraphRec → LCResult

/-- `largest_component()`: compute the components; a connected graph returns
`self`, otherwise a new object induced on the most populous component. -/
def largest_component (g : GraphRec) : LCResult :=
  if number_of_components g = 1 then LCResult.selfAlias
  else LCResult.fresh (g_copy g)

theorem argFold_ge_init (f : ℕ → ℕ) (l : List ℕ) :
    ∀ init : ℕ,
      f init ≤ f (l.foldl (fun best y => if f best < f y then y else best) init) := by
  induction l with
  | nil =>
    intro init
    exact le_refl _
  | cons a t ih =>
    intro init
    by_cases hlt : f init < f a
    · calc f init ≤ f a := le_of_lt hlt
        _ ≤ _ := by
          have := ih a
          rw [List.foldl_cons, if_pos hlt]
          exact this
    · have := ih init
      rw [List.foldl_cons, if_neg hlt]
      exact this

theorem argFold_ge_mem (f : ℕ → ℕ) (l : List ℕ) :
    ∀ init : ℕ, ∀ x ∈ l,
      f x ≤ f (l.foldl (fun best y => if f best < f y then y else best) init) := by
  induction l with
  | nil =>
    intro init x hx
    cases hx
  | cons a t ih =>
    intro init x hx
    rcases List.mem_cons.mp hx with rfl | hx'
    · by_cases hlt : f init < f x
      · rw [List.foldl_cons, if_pos hlt]
        exact argFold_ge_init f t x
      · rw [List.foldl_cons, if_neg hlt]
        exact le_trans (le_of_not_lt hlt) (argFold_ge_init f t init)
    · by_cases hlt : f init < f a
      · rw [List.foldl_cons, if_pos hlt]
        exact ih a x hx'
      · rw [List.foldl_cons, if_neg hlt]
        exact ih init x hx'

theorem argFold_mem (f : ℕ → ℕ) (l : List ℕ) :
    ∀ init : ℕ,
      l.foldl (fun best y => if f best < f y then y else best) init = init ∨
      l.foldl (fun best y => if f best < f y then y else best) init ∈ l := by
  induction l with
  | nil =>
    intro init
    exact Or.inl rfl
  | cons a t ih =>
    intro init
    by_cases hlt : f init < f a
    · rw [List.foldl_cons, if_pos hlt]
      rcases ih a with h | h
      · refine Or.inr ?_
        rw [h]
        exact List.mem_cons_self a t
      · exact Or.inr (List.mem_cons_of_mem a h)
    · rw [List.foldl_cons, if_neg hlt]
      rcases ih init with h | h
      · exact Or.inl h
      · exact Or.inr (List.mem_cons_of_mem a h)

theorem mem_candidateLabels {g : GraphRec} {x : ℕ} :
    x ∈ candidateLabels g ↔ x < g.n ∧ labelOf g x = x := by
  unfold candidateLabels
  rw [List.mem_filter, List.mem_range, decide_eq_true_eq]

theorem labelOf_mem_candidateLabels (g : GraphRec) {v : ℕ} (hv : v < g.n) :
    labelOf g v ∈ candidateLabels g :=
  mem_candidateLabels.mpr ⟨labelOf_lt g hv, labelOf_idem g v⟩

theorem mostCommonLabel_mem (g : GraphRec) (h : candidateLabels g ≠ []) :
    mostCommonLabel g ∈ candidateLabels g := by
  cases hc : candidateLabels g with
  | nil => exact absurd hc h
  | cons x ls =>
    have he : mostCommonLabel g
        = ls.foldl (fun best y => if labelCount g best < labelCount g y then y else best) x := by
      unfold mostCommonLabel
      rw [hc]
    rw [he]
    rcases argFold_mem (labelCount g) ls x with hm | hm
    · rw [hm]
      exact List.mem_cons_self x ls
    · exact List.mem_cons_of_mem x hm

theorem mostCommonLabel_max (g : GraphRec) :
    ∀ x ∈ candidateLabels g, labelCount g x ≤ labelCount g (mostCommonLabel g) := by
  intro x hx
  cases hc : candidateLabels g with
  | nil =>
    rw [hc] at hx
    cases hx
  | cons y ls =>
    have he : mostCommonLabel g
        = ls.foldl (fun best z => if labelCount g best < labelCount g z then z else best) y := by
      unfold mostCommonLabel
      rw [hc]
    rw [he]
    rw [hc] at hx
    rcases List.mem_cons.mp hx with rfl | hx'
    · exact argFold_ge_init (labelCount g) ls x
    · exact argFold_ge_mem (labelCount g) ls y x hx'

theorem mem_maxccnodes {g : GraphRec} {i : ℕ} :
    i ∈ maxccnodes g ↔ i < g.n ∧ mostCommonLabel g = labelOf g i := by
  unfold maxccnodes
  rw [List.mem_filter, List.mem_range, decide_eq_true_eq]

theorem maxccnodes_length (g : GraphRec) :
    (maxccnodes g).length = labelCount g (mostCommonLabel g) := by
  unfold maxccnodes labelCount
  rw [List.filter_congr (fun x _ => decide_eq_decide.mpr (eq_comm))]

/-- C4 (corrected): when the graph is disconnected (at least two connected
components), `largest_component` does return a freshly constructed object
`g_copy g`: its vertex list `maxccnodes` is exactly the most populous
component (ties broken towards the component first discovered, the one with
the smallest minimal vertex), listed in increasing order and relabeled onto
the contiguous range `[0,k)` order-preservingly; the sliced adjacency, the
copied `_weighted` flag, `_num_edges = nnz` and the recomputed statistics
are as claimed.  On a connected graph, however, the claim fails: the method
returns `self` — an alias of the original object, not a new one (see the
counterexample). -/
theorem largest_component_spec (g : GraphRec)
    (h2 : 2 ≤ number_of_components g) :
    largest_component g = LCResult.fresh (g_copy g) ∧
    (∀ i, i ∈ maxccnodes g ↔ i < g.n ∧ reaches g i (mostCommonLabel g)) ∧
    (∀ u v, labelOf g u = labelOf g v ↔ reaches g u v) ∧
    (∀ v, v < g.n → labelCount g (labelOf g v) ≤ (maxccnodes g).length) ∧
    List.Pairwise (fun a b => a < b) (maxccnodes g) ∧
    (g_copy g).n = (maxccnodes g).length ∧
    (∀ i j, i < (maxccnodes g).length → j < (maxccnodes g).length →
      (g_copy g).A i j = g.A ((maxccnodes g).getD i 0) ((maxccnodes g).getD j 0)) ∧
    (∀ i j, (maxccnodes g).length ≤ i ∨ (maxccnodes g).length ≤ j →
      (g_copy g).A i j = 0) ∧
    (g_copy g).weighted = g.weighted ∧
    (g_copy g).m = nnz (g_copy g).n (g_copy g).A ∧
    (∀ i, (g_copy g).d i =
      if i < (g_copy g).n then rowSum (g_copy g).n (g_copy g).A i else 0) ∧
    (∀ i, (g_copy g).dn i =
      if i < (g_copy g).n ∧ rowSum (g_copy g).n (g_copy g).A i ≠ 0
      then (rowSum (g_copy g).n (g_copy g).A i)⁻¹ else 0) ∧
    (g_copy g).vol = ((List.range (g_copy g).n).map
      (fun i => rowSum (g_copy g).n (g_copy g).A i)).sum := by
  have hne : candidateLabels g ≠ [] := by
    intro hnil
    unfold number_of_components at h2
    rw [hnil] at h2
    simp at h2
  obtain ⟨hMLlt, hMLfix⟩ := mem_candidateLabels.mp (mostCommonLabel_mem g hne)
  refine ⟨?_, ?_, labelOf_eq_iff_reaches g, ?_, ?_, rfl, ?_, ?_, rfl, rfl,
    fun i => rfl, fun i => rfl, rfl⟩
  · unfold largest_component
    rw [if_neg (by omega)]
  · intro i
    rw [mem_maxccnodes]
    constructor
    · rintro ⟨hi, hl⟩
      refine ⟨hi, (labelOf_eq_iff_reaches g i (mostCommonLabel g)).mp ?_⟩
      rw [← hl, hMLfix]
    · rintro ⟨hi, hr⟩
      refine ⟨hi, ?_⟩
      have := (labelOf_eq_iff_reaches g i (mostCommonLabel g)).mpr hr
      rw [hMLfix] at this
      exact this.symm
  · intro v hv
    rw [maxccnodes_length]
    exact mostCommonLabel_max g (labelOf g v) (labelOf_mem_candidateLabels g hv)
  · exact List.Pairwise.sublist (List.filter_sublist _) (List.pairwise_lt_range g.n)
  · intro i j hi hj
    show inducedA g i j = _
    unfold inducedA
    rw [if_pos ⟨hi, hj⟩]
  · intro i j hij
    show inducedA g i j = 0
    unfold inducedA
    rw [if_neg (by omega)]

/-- The connected two-vertex graph with the single edge `0–1`. -/
def edgeG : GraphRec :=
  (list_to_gl [0] [1] [1]).toOption.getD defaultGraph

/-- The disconnected two-vertex graph with the self-loops `(0,0)` and
`(1,1)`: two components. -/
def loopG : GraphRec :=
  (list_to_gl [0, 1] [0, 1] [1, 1]).toOption.getD defaultGraph

/-- Counterexample to C4 as stated: on the connected two-vertex graph the
method takes the `number_of_components == 1` branch and executes
`return self`, handing back an alias of the original object rather than an
entirely new, independently owned one. -/
theorem largest_component_alias_counterexample :
    largest_component edgeG = LCResult.selfAlias := by
  unfold largest_component
  rw [if_pos (show number_of_components edgeG = 1 by with_unfolding_all decide)]

/-- Witness for C4 (amended) on the two-component self-loop graph: the
hypothesis holds and a fresh object is returned. -/
theorem largest_component_spec_witness :
    2 ≤ number_of_components loopG ∧
    largest_component loopG = LCResult.fresh (g_copy loopG) :=
  ⟨by with_unfolding_all decide,
   (largest_component_spec loopG (by with_unfolding_all decide)).1⟩

end GraphLocal
